import Mathlib

/-!
Verification of the `assemblyline` transcript-assembly engine
(`assemblyline/lib/assemble/assembler.py`).

The development shallowly embeds the assembler's data model and operations:

* directed graphs are edge/vertex lists (`DGraph`), mirroring the
  `networkx.DiGraph` access patterns the code uses (`successors`,
  `predecessors`, `in_degree`, `out_degree`);
* `Exon` mirrors the half-open interval objects used as graph vertices; the
  Python attribute `end` is called `stop` here because `end` is a Lean keyword;
* read densities (Python floats) are modelled as exact rationals `ℚ`;
* the unbounded `while` loops of `_extend_partial_paths` are modelled with an
  explicit fuel parameter returning `Option` (`none` = fuel exhausted), so that
  termination is a provable statement;
* the stack-driven bounded DFS enumerations (`get_forward_kmers`,
  `extend_path_reverse`, `extend_path_forward`) are modelled by structural
  recursion on the number of extension steps still to perform, which is the
  quantity the source's `len(path) == k` tests count down.
-/

/-- A finite directed graph given by its vertex and edge lists.  Models a
`networkx.DiGraph`: `vertices` collects `G.nodes()` and `edges` collects
`G.edges()`; a well-formed instance has no duplicate vertices or edges
(networkx stores both as sets). -/
structure DGraph (V : Type) where
  vertices : List V
  edges : List (V × V)
deriving Repr

/-- `G.successors_iter(v)` / `G.successors(v)`: targets of the edges leaving
`v`. -/
def successors {V : Type} [DecidableEq V] (G : DGraph V) (v : V) : List V :=
  (G.edges.filter (fun e => decide (e.1 = v))).map (fun e => e.2)

/-- `G.predecessors(v)`: sources of the edges entering `v`. -/
def predecessors {V : Type} [DecidableEq V] (G : DGraph V) (v : V) : List V :=
  (G.edges.filter (fun e => decide (e.2 = v))).map (fun e => e.1)

/-- `G.out_degree(v)`. -/
def outDegree {V : Type} [DecidableEq V] (G : DGraph V) (v : V) : Nat :=
  (successors G v).length

/-- `G.in_degree(v)`. -/
def inDegree {V : Type} [DecidableEq V] (G : DGraph V) (v : V) : Nat :=
  (predecessors G v).length

/-- Executable test that consecutive elements of `p` are joined by edges of
`G`, i.e. that `p` is a walk in `G`. -/
def isWalkB {V : Type} [DecidableEq V] (G : DGraph V) : List V → Bool
  | [] => true
  | [_] => true
  | a :: b :: l => decide ((a, b) ∈ G.edges) && isWalkB G (b :: l)

/-- `p` is a walk in `G` (consecutive vertices joined by edges). -/
def IsWalk {V : Type} [DecidableEq V] (G : DGraph V) (p : List V) : Prop :=
  isWalkB G p = true

instance instDecidableIsWalk {V : Type} [DecidableEq V] (G : DGraph V)
    (p : List V) : Decidable (IsWalk G p) :=
  inferInstanceAs (Decidable (isWalkB G p = true))

/-- `G` is a DAG: it admits a rank function that strictly increases along
every edge.  For finite graphs this is the usual characterisation of
acyclicity by topological orderability. -/
def Acyclic {V : Type} (G : DGraph V) : Prop :=
  ∃ f : V → Nat, ∀ e ∈ G.edges, f e.1 < f e.2

/-- Representation invariants of a `networkx.DiGraph`: node and edge sets have
no duplicates and every edge endpoint is a node. -/
def WellFormed {V : Type} (G : DGraph V) : Prop :=
  G.vertices.Nodup ∧ G.edges.Nodup ∧
    ∀ e ∈ G.edges, e.1 ∈ G.vertices ∧ e.2 ∈ G.vertices

instance instDecidableWellFormed {V : Type} [DecidableEq V] (G : DGraph V) :
    Decidable (WellFormed G) :=
  inferInstanceAs (Decidable (G.vertices.Nodup ∧ G.edges.Nodup ∧
    ∀ e ∈ G.edges, e.1 ∈ G.vertices ∧ e.2 ∈ G.vertices))

/-- A half-open genomic interval `[start, stop)`.  Mirrors the Python `Exon`
object (`Exon(start, end)`); the second field is `stop` because `end` is a
Lean keyword.  Dummy exons introduced by the assembler have `start < 0`. -/
structure Exon where
  start : Int
  stop : Int
deriving DecidableEq, Repr, Inhabited

/-- The dummy exon `Exon(i, i)` used by `add_dummy_start_end_nodes`. -/
def dummyExon (i : Int) : Exon := ⟨i, i⟩

/-- The `k` source dummy nodes `[Exon(-1,-1), ..., Exon(-k,-k)]`; this matches
`[Exon(i,i) for i in xrange(-1, -1-k, -1)]` in `add_dummy_start_end_nodes`. -/
def sourceDummies (k : Nat) : List Exon :=
  (List.range k).map (fun (i : Nat) => dummyExon (-(1 + (i : Int))))

/-- The `k` sink dummy nodes `[Exon(-2k,-2k), ..., Exon(-(k+1),-(k+1))]`; this
matches `[Exon(i,i) for i in xrange(-1-k, -1-2*k, -1)]` followed by
`.reverse()`. -/
def sinkDummies (k : Nat) : List Exon :=
  (List.range k).map (fun (i : Nat) => dummyExon (-(2 * (k : Int)) + (i : Int)))

/-- The consecutive edges `d[i] -> d[i+1]` that `_add_dummy_nodes` inserts
along a dummy block. -/
def chainEdges {V : Type} (l : List V) : List (V × V) := l.zip l.tail

/-- `add_dummy_start_end_nodes(G, k)`: add a chain of `k` source dummies and a
chain of `k` sink dummies, connect the last source dummy to every vertex of
in-degree 0 and every vertex of out-degree 0 to the first sink dummy.  The
Python function mutates `G` in place and returns the two dummy tuples; here
the augmented graph is returned (the dummy tuples are `sourceDummies k` and
`sinkDummies k`). -/
def addDummyStartEndNodes (G : DGraph Exon) (k : Nat) : DGraph Exon :=
  let startNodes := G.vertices.filter (fun n => decide (inDegree G n = 0))
  let endNodes := G.vertices.filter (fun n => decide (outDegree G n = 0))
  let src := sourceDummies k
  let snk := sinkDummies k
  { vertices := G.vertices ++ src ++ snk
    edges := G.edges ++ chainEdges src ++ chainEdges snk
      ++ startNodes.map (fun n => (src.getLastD (dummyExon (-1)), n))
      ++ endNodes.map (fun n => (n, snk.headD (dummyExon (-1)))) }

/-- The stack recursion inside `get_forward_kmers`, indexed by the number of
extension steps left before `len(path) == k` holds (`n = k - len(path)`, the
measure the source's stack loop counts down; paths only grow one vertex per
step, so the translation is exact for the call sites, where `k ≥ 1` and the
seed is a single vertex). -/
def getForwardKmersAux {V : Type} [DecidableEq V] [Inhabited V] (G : DGraph V) :
    Nat → List V → List (List V)
  | 0, p => [p]
  | n + 1, p => (successors G (p.getLastD default)).flatMap
      (fun s => getForwardKmersAux G n (p ++ [s]))

/-- `get_forward_kmers(G, seed_path, k)`: all forward walks of length `k`
extending `seed_path`. -/
def getForwardKmers {V : Type} [DecidableEq V] [Inhabited V] (G : DGraph V)
    (seedPath : List V) (k : Nat) : List (List V) :=
  getForwardKmersAux G (k - seedPath.length) seedPath

/-- The k-mer vertices of `create_kmer_graph`: for every node `n` of `G`, all
forward k-mers seeded at `(n,)`. -/
def kmerNodes {V : Type} [DecidableEq V] [Inhabited V] (G : DGraph V) (k : Nat) :
    List (List V) :=
  G.vertices.flatMap (fun n => getForwardKmers G [n] k)

/-- The edge list of `create_kmer_graph`: group k-mers by their (k-1)-mer
`kmer[1:]` and `kmer[:-1]` projections (`kmer_hash`), then for every
(k-1)-mer emit the product of its reverse extensions and forward extensions.
The `dedup`s model the Python `set()` values of `kmer_hash` and its key set. -/
def kmerGraphEdges {V : Type} [DecidableEq V] [Inhabited V] (G : DGraph V) (k : Nat) :
    List (List V × List V) :=
  let kmers := kmerNodes G k
  let keys := (kmers.map (fun w => w.tail) ++ kmers.map (fun w => w.dropLast)).dedup
  keys.flatMap (fun m =>
    let revs := ((kmers.filter (fun w => decide (w.tail = m))).map
      (fun w => w.headD default)).dedup
    let fwds := ((kmers.filter (fun w => decide (w.dropLast = m))).map
      (fun w => w.getLastD default)).dedup
    fwds.flatMap (fun f => revs.map (fun r => (r :: m, m ++ [f]))))

/-- `create_kmer_graph(G, k)` as a graph: all k-mers plus the overlap edges. -/
def kmerGraph {V : Type} [DecidableEq V] [Inhabited V] (G : DGraph V) (k : Nat) :
    DGraph (List V) :=
  { vertices := kmerNodes G k, edges := kmerGraphEdges G k }

/-- The stack recursion inside `extend_path_reverse`, indexed by the number of
prepend steps left before `len(path) == length + 1` holds (the source pushes
`(pred,) + path` until that test fires and then records `path[:-1]`). -/
def extendRevAux {V : Type} [DecidableEq V] [Inhabited V] (G : DGraph V) :
    Nat → List V → List (List V)
  | 0, p => [p.dropLast]
  | n + 1, p => (predecessors G (p.headD default)).flatMap
      (fun q => extendRevAux G n (q :: p))

/-- `extend_path_reverse(G, seed, length)`: all backward walks of `length`
vertices ending just before `seed`. -/
def extendPathReverse {V : Type} [DecidableEq V] [Inhabited V] (G : DGraph V)
    (seed : V) (length : Nat) : List (List V) :=
  extendRevAux G length [seed]

/-- The stack recursion inside `extend_path_forward` (append side). -/
def extendFwdAux {V : Type} [DecidableEq V] [Inhabited V] (G : DGraph V) :
    Nat → List V → List (List V)
  | 0, p => [p.tail]
  | n + 1, p => (successors G (p.getLastD default)).flatMap
      (fun s => extendFwdAux G n (p ++ [s]))

/-- `extend_path_forward(G, seed, length)`: all forward walks of `length`
vertices starting just after `seed`. -/
def extendPathForward {V : Type} [DecidableEq V] [Inhabited V] (G : DGraph V)
    (seed : V) (length : Nat) : List (List V) :=
  extendFwdAux G length [seed]

/-- `_get_partial_path_kmers(G, seed_path, k)`: extend a path shorter than `k`
by `ceil((k-len)/2)` vertices backward and `floor((k-len)/2)` vertices
forward (`Lrev = (L+1) >> 1`, `Lfwd = L >> 1`) and take all concatenations
`rp + seed_path + fp`. -/
def getPartialPathKmers {V : Type} [DecidableEq V] [Inhabited V] (G : DGraph V)
    (seedPath : List V) (k : Nat) : List (List V) :=
  let L := k - seedPath.length
  let lrev := (L + 1) / 2
  let lfwd := L / 2
  let revPaths := extendPathReverse G (seedPath.headD default) lrev
  let fwdPaths := extendPathForward G (seedPath.getLastD default) lfwd
  revPaths.flatMap (fun rp => fwdPaths.map (fun fp => rp ++ seedPath ++ fp))

/-- The backward `while len(preds) == 1` loop of `_extend_partial_paths`,
with an explicit fuel bound; `none` means the fuel ran out (the source loop
would still be running). -/
def extendBackwardLoop {V : Type} [DecidableEq V] [Inhabited V] (G : DGraph V) :
    Nat → List V → Option (List V)
  | 0, _ => none
  | fuel + 1, p =>
      match predecessors G (p.headD default) with
      | [q] => extendBackwardLoop G fuel (q :: p)
      | _ => some p

/-- The forward `while len(succs) == 1` loop of `_extend_partial_paths`. -/
def extendForwardLoop {V : Type} [DecidableEq V] [Inhabited V] (G : DGraph V) :
    Nat → List V → Option (List V)
  | 0, _ => none
  | fuel + 1, p =>
      match successors G (p.getLastD default) with
      | [s] => extendForwardLoop G fuel (p ++ [s])
      | _ => some p

/-- One iteration of `_extend_partial_paths`: run the backward loop, then the
forward loop, on a single partial path. -/
def extendPartialPath {V : Type} [DecidableEq V] [Inhabited V] (G : DGraph V)
    (fuel : Nat) (p : List V) : Option (List V) :=
  (extendBackwardLoop G fuel p).bind (extendForwardLoop G fuel)

/-- `_extend_partial_paths(G, partial_paths)`: extend every path in both
directions while the edge degree is one, keeping its density. -/
def extendPartialPaths {V : Type} [DecidableEq V] [Inhabited V] (G : DGraph V)
    (fuel : Nat) (pps : List (List V × ℚ)) : Option (List (List V × ℚ)) :=
  pps.mapM (fun pd => (extendPartialPath G fuel pd.1).map (fun p => (p, pd.2)))

/-- The per-k-mer attribute record of the k-mer graph: `NODE_DENSITY`,
`SMOOTH_FWD` (`smfwd`), `SMOOTH_REV` (`smrev`) and `SMOOTH_TMP` (`smtmp`),
all initialised to `0.0` by `create_kmer_graph`. -/
structure NodeData where
  density : ℚ
  smfwd : ℚ
  smrev : ℚ
  smtmp : ℚ
deriving DecidableEq, Repr

/-- The all-zero attribute record. -/
def NodeData.zero : NodeData := ⟨0, 0, 0, 0⟩

/-- The attribute state of the k-mer graph: one record per k-mer.  The source
stores these in per-node attribute dictionaries; vertices never touched by
the pipeline keep the zero record. -/
def KState (V : Type) : Type := List V → NodeData

/-- Functional update of one k-mer's attribute record. -/
def updState {V : Type} [DecidableEq V] (st : KState V) (m : List V)
    (a : NodeData) : KState V :=
  fun y => if y = m then a else st y

/-- Add `x` to `density`, `smfwd` and `smrev` of a record, leaving `smtmp`
unchanged (the three `+=` statements of `_add_partial_paths_bin`'s
short-path branch). -/
def addThree (a : NodeData) (x : ℚ) : NodeData :=
  { a with density := a.density + x, smfwd := a.smfwd + x, smrev := a.smrev + x }

/-- The `len(path) < k` branch of `_add_partial_paths_bin`: spread `density`
over all candidate k-mers, equally if their total density is zero and
proportionally otherwise.  (When `kmers` is empty the source raises
`ZeroDivisionError`; in `ℚ` the division yields 0, and the theorems assume
`kmers ≠ []`.) -/
def attributeShort {V : Type} [DecidableEq V] [Inhabited V] (G : DGraph V)
    (k : Nat) (st : KState V) (p : List V) (d : ℚ) : KState V :=
  let kmers := getPartialPathKmers G p k
  let totalDensity := (kmers.map (fun m => (st m).density)).sum
  if totalDensity = 0 then
    let avgDensity := d / (kmers.length : ℚ)
    kmers.foldl (fun st' m => updState st' m (addThree (st' m) avgDensity)) st
  else
    kmers.foldl (fun st' m =>
      let frac := (st' m).density / totalDensity
      updState st' m (addThree (st' m) (frac * d))) st

/-- The `len(path) >= k` branch of `_add_partial_paths_bin`: slide a window of
size `k` along the path, adding `density` to every window, plus `density` to
`smrev` of the first window and to `smfwd` of the last window.  (The source's
`assert kmer in K` always holds in pipeline use and is not modelled.) -/
def attributeLong {V : Type} [DecidableEq V] (k : Nat) (st : KState V)
    (p : List V) (d : ℚ) : KState V :=
  let windows := (List.range (p.length - k + 1)).map (fun i => (p.drop i).take k)
  let st1 := windows.foldl (fun st' m =>
    updState st' m ({ st' m with density := (st' m).density + d })) st
  let st2 :=
    match windows.headD [] with
    | m0 => updState st1 m0 ({ st1 m0 with smrev := (st1 m0).smrev + d })
  match windows.getLastD [] with
  | mL => updState st2 mL ({ st2 mL with smfwd := (st2 mL).smfwd + d })

/-- Attribution of a single `(path, density)` pair: the body of the
`while len(partial_paths) > 0` loop of `_add_partial_paths_bin`. -/
def attributeOne {V : Type} [DecidableEq V] [Inhabited V] (G : DGraph V)
    (k : Nat) (st : KState V) (pd : List V × ℚ) : KState V :=
  if pd.1.length < k then attributeShort G k st pd.1 pd.2
  else attributeLong k st pd.1 pd.2

/-- `_add_partial_paths_bin(G, K, partial_paths, k)`: pop paths from the end
of the (density-ascending) list, i.e. consume them in density-descending
order. -/
def addPartialPathsBin {V : Type} [DecidableEq V] [Inhabited V] (G : DGraph V)
    (k : Nat) (st : KState V) (pps : List (List V × ℚ)) : KState V :=
  pps.reverse.foldl (attributeOne G k) st

/-- Stable insertion of one element into a density-ascending list (used to
model Python's stable ascending `list.sort(key=lambda x: x[1])`). -/
def insertByDensity {V : Type} : List (List V × ℚ) → (List V × ℚ) →
    List (List V × ℚ)
  | [], x => [x]
  | y :: ys, x => if x.2 < y.2 then x :: y :: ys else y :: insertByDensity ys x

/-- Stable sort by ascending density. -/
def sortByDensity {V : Type} (l : List (List V × ℚ)) : List (List V × ℚ) :=
  l.foldl insertByDensity []

/-- `_bin_partial_paths` + the bin loop of `add_partial_path_kmers`: group
paths by `min(len, k)`, sort each bin ascending by density, and process the
bins from longest to shortest. -/
def processBins {V : Type} [DecidableEq V] [Inhabited V] (G : DGraph V)
    (k : Nat) (st : KState V) (pps : List (List V × ℚ)) : KState V :=
  ((List.range (k + 1)).reverse).foldl (fun st' kbin =>
    let binPaths := pps.filter (fun pd => decide (min pd.1.length k = kbin))
    addPartialPathsBin G k st' (sortByDensity binPaths)) st

/-- Attribute selectors for the string-keyed per-node dictionaries
(`NODE_DENSITY`, `SMOOTH_FWD`, `SMOOTH_REV`, `SMOOTH_TMP`). -/
inductive KAttr where
  | density
  | smfwd
  | smrev
  | smtmp
deriving DecidableEq, Repr

/-- Dictionary read `d[attr]`. -/
def getAttr (a : NodeData) : KAttr → ℚ
  | .density => a.density
  | .smfwd => a.smfwd
  | .smrev => a.smrev
  | .smtmp => a.smtmp

/-- Dictionary write `d[attr] = x`. -/
def setAttr (a : NodeData) : KAttr → ℚ → NodeData
  | .density, x => { a with density := x }
  | .smfwd, x => { a with smfwd := x }
  | .smrev, x => { a with smrev := x }
  | .smtmp, x => { a with smtmp := x }

/-- The two dictionary writes `vd[SMOOTH_TMP] += x; vd[smooth_attr] += x`
performed on a successor during a smoothing pass. -/
def bumpSmooth {V : Type} [DecidableEq V] (sm : KAttr) (st : KState V)
    (v : List V) (x : ℚ) : KState V :=
  let a := st v
  let a1 := setAttr a .smtmp (getAttr a .smtmp + x)
  let a2 := setAttr a1 sm (getAttr a1 sm + x)
  updState st v a2

/-- The body of `smooth_iteration`'s `for u in nodes` loop: distribute `u`'s
accumulated `smooth_attr` mass over its successors, proportionally to their
`density_attr` when the successor total is nonzero and evenly otherwise. -/
def smoothProcess {V : Type} [DecidableEq V] (K : DGraph (List V))
    (densityAttr smoothAttr : KAttr) (st : KState V) (u : List V) : KState V :=
  let smoothDensity := getAttr (st u) smoothAttr
  let succ := successors K u
  if succ.length = 0 then st
  else
    let totalNbrDensity := (succ.map (fun v => getAttr (st v) densityAttr)).sum
    if totalNbrDensity = 0 then
      let avgDensity := smoothDensity / (succ.length : ℚ)
      succ.foldl (fun st' v => bumpSmooth smoothAttr st' v avgDensity) st
    else
      succ.foldl (fun st' v =>
        let frac := getAttr (st' v) densityAttr / totalNbrDensity
        bumpSmooth smoothAttr st' v (frac * smoothDensity)) st

/-- `smooth_iteration(K, density_attr, smooth_attr)` over a given node
order (the source iterates `nx.topological_sort(K)`). -/
def smoothIteration {V : Type} [DecidableEq V] (K : DGraph (List V))
    (densityAttr smoothAttr : KAttr) (order : List (List V)) (st : KState V) :
    KState V :=
  order.foldl (smoothProcess K densityAttr smoothAttr) st

/-- `K.reverse(copy=False)`: flip every edge. -/
def reverseGraph {V : Type} (K : DGraph V) : DGraph V :=
  { vertices := K.vertices, edges := K.edges.map (fun e => (e.2, e.1)) }

/-- Kahn-style topological sort: repeatedly take the first remaining vertex
with no incoming edge from the remaining set.  In a DAG the fallback branch
returning the leftovers is never taken.  Models `nx.topological_sort`. -/
def topoSortAux {V : Type} [DecidableEq V] (edges : List (V × V)) :
    Nat → List V → List V
  | 0, rem => rem
  | fuel + 1, rem =>
      match rem.find? (fun v => !(rem.any (fun u => decide ((u, v) ∈ edges)))) with
      | some v => v :: topoSortAux edges fuel (rem.erase v)
      | none => rem

/-- `nx.topological_sort(K)`. -/
def topoSort {V : Type} [DecidableEq V] (K : DGraph V) : List V :=
  topoSortAux K.edges K.vertices.length K.vertices

/-- The commit loop of `smooth_kmer_graph`: `d[density_attr] += d[SMOOTH_TMP]`
for every node of `K`. -/
def commitSmoothing {V : Type} [DecidableEq V] (K : DGraph (List V))
    (densityAttr : KAttr) (st : KState V) : KState V :=
  K.vertices.foldl (fun st' n =>
    updState st' n
      (setAttr (st' n) densityAttr
        (getAttr (st' n) densityAttr + getAttr (st' n) .smtmp))) st

/-- `smooth_kmer_graph(K)`: a forward smoothing pass in topological order, a
backward pass on the reversed graph, then the commit loop. -/
def smoothKmerGraph {V : Type} [DecidableEq V] (K : DGraph (List V))
    (st : KState V) : KState V :=
  let st1 := smoothIteration K .density .smfwd (topoSort K) st
  let Krev := reverseGraph K
  let st2 := smoothIteration Krev .density .smrev (topoSort Krev) st1
  commitSmoothing K .density st2

/-- The strand of a transcript graph; `neg` is `NEG_STRAND`. -/
inductive Strand where
  | pos
  | neg
deriving DecidableEq, Repr

/-- A transcript graph together with the per-vertex attributes the assembler
reads: the `chain` list of child exons and the `tss_id` tag. -/
structure TGraph where
  graph : DGraph Exon
  chain : Exon → List Exon
  tssId : Exon → Int

/-- The collapse loop of `expand_path_chains`: `chain` accumulates contiguous
exons; on a discontinuity (`chain[-1].end != v.start`) an `Exon` spanning the
accumulated run is emitted and the run restarts at `v`.  The arguments track
`chain[0].start` and `chain[-1].end`. -/
def mergeChainAux (s e : Int) : List Exon → List Exon
  | [] => [⟨s, e⟩]
  | v :: rest =>
      if e ≠ v.start then ⟨s, e⟩ :: mergeChainAux v.start v.stop rest
      else mergeChainAux s v.stop rest

/-- `expand_path_chains(G, strand, path)`: reverse the path on the negative
strand, expand each vertex into its `chain` children and collapse contiguous
exons.  (On an empty expanded path the source raises `IndexError` at
`path[0]`; that cannot happen in pipeline use and the model returns `[]`.) -/
def expandPathChains (tg : TGraph) (strand : Strand) (path : List Exon) :
    List Exon :=
  let path1 := if strand = Strand.neg then path.reverse else path
  let newpath := path1.flatMap tg.chain
  match newpath with
  | [] => []
  | v :: rest => mergeChainAux v.start v.stop rest

/-- The per-path post-processing of `assemble_transcript_graph` (lines
359-367): unroll the k-mer path (all of the first k-mer, then the last vertex
of each subsequent k-mer), drop dummy nodes (`n.start >= 0` keeps a node),
and expand/merge chains. -/
def reconstructPath (tg : TGraph) (strand : Strand)
    (kmerPath : List (List Exon)) : List Exon :=
  let path := kmerPath.headD [] ++ (kmerPath.tail.map (fun km => km.getLastD default))
  let path2 := path.filter (fun n => decide (0 ≤ n.start))
  expandPathChains tg strand path2

/-- One entry of the result list: density, `tss_id` and the reconstructed exon
path.  (The process-global `tx_id` counter is not part of the per-call
semantics modelled here.) -/
structure PathInfo where
  density : ℚ
  tssId : Int
  path : List Exon
deriving Repr

/-- The errors the embedded driver can surface: `valueError` models Python's
`ValueError` from `max()` of an empty sequence, and `fuelExhausted` is the
model's marker for a diverging `while` loop (never reached on DAG inputs). -/
inductive AsmError where
  | valueError
  | fuelExhausted
deriving DecidableEq, Repr

/-- Python's `max` over a list of integers (raises `ValueError` on `[]`). -/
def listMax : List Int → Except AsmError Int
  | [] => .error .valueError
  | x :: xs => .ok (xs.foldl max x)

/-- The k-mer size computed by `assemble_transcript_graph`:
`kmax = max(2, kmax); k = max(2, min(kmax, longest_path))`. -/
def chooseK (kmax longest : Int) : Int :=
  max 2 (min (max 2 kmax) longest)

/-- The `longest_path = max(len(x[0]) for x in partial_paths)` plus
`k = max(kmin, min(kmax, longest_path))` steps of the driver. -/
def selectK (pps : List (List Exon × ℚ)) (kmax : Int) : Except AsmError Int := do
  let longest ← listMax (pps.map (fun pd => (pd.1.length : Int)))
  pure (chooseK kmax longest)

/-- The zero-initialised attribute state created by `create_kmer_graph`. -/
def initKState : KState Exon := fun _ => NodeData.zero

/-- `assemble_transcript_graph` up to and including `smooth_kmer_graph`
(lines 330-353): clamp `fraction_major_path`, choose `k`, add dummies, build
the k-mer graph, attribute the partial paths and smooth.  Returns the chosen
`k`, the clamped fraction, the k-mer graph and its final attribute state. -/
def assembleCore (tg : TGraph) (pps : List (List Exon × ℚ))
    (kmax : Int) (fractionMajorPath : ℚ) :
    Except AsmError (Int × ℚ × DGraph (List Exon) × KState Exon) := do
  let fmp1 := if fractionMajorPath < 0 then (0 : ℚ) else fractionMajorPath
  let fmp2 := if 1 ≤ fmp1 then (1 : ℚ) else fmp1
  let k ← selectK pps kmax
  let kn := k.toNat
  let Gd := addDummyStartEndNodes tg.graph kn
  let K := kmerGraph Gd kn
  let extended ← match extendPartialPaths Gd (Gd.vertices.length + 1) pps with
    | some l => Except.ok l
    | none => Except.error AsmError.fuelExhausted
  let stAttr := processBins Gd kn initKState extended
  let stSmooth := smoothKmerGraph K stAttr
  pure (k, fmp2, K, stSmooth)

/-- `assemble_transcript_graph(G, strand, partial_paths, kmax,
fraction_major_path, max_paths)`.  The path finder
(`find_suboptimal_paths`, imported from the `path_finder` module, which is
not part of this repository's sources) is passed in as a function argument
satisfying the contract of the specification: it returns a list of
`(kmer_path, density)` pairs. -/
def assembleTranscriptGraph
    (finder : DGraph (List Exon) → KState Exon → ℚ → Nat → List (List (List Exon) × ℚ))
    (tg : TGraph) (strand : Strand) (pps : List (List Exon × ℚ))
    (kmax : Int) (fractionMajorPath : ℚ) (maxPaths : Nat) :
    Except AsmError (List PathInfo) := do
  let r ← assembleCore tg pps kmax fractionMajorPath
  let K := r.2.2.1
  let st := r.2.2.2
  let fmp := r.2.1
  pure ((finder K st fmp maxPaths).map (fun kpd =>
    let kmerPath := kpd.1
    let path := kmerPath.headD [] ++ (kmerPath.tail.map (fun km => km.getLastD default))
    let path2 := path.filter (fun n => decide (0 ≤ n.start))
    let tss := tg.tssId (path2.headD default)
    { density := kpd.2, tssId := tss, path := expandPathChains tg strand path2 }))

/-- Invariant of one smoothing pass relative to its initial state: every
attribute other than the pass's `smooth_attr` and `SMOOTH_TMP` is untouched,
and `SMOOTH_TMP` and the `smooth_attr` have grown by the same amount (every
write adds equal quantities to both). -/
def PassInv {V : Type} (sm : KAttr) (st st' : KState V) : Prop :=
  ∀ v : List V,
    (∀ a : KAttr, a ≠ sm → a ≠ KAttr.smtmp →
      getAttr (st' v) a = getAttr (st v) a) ∧
    (getAttr (st' v) .smtmp - getAttr (st v) .smtmp =
      getAttr (st' v) sm - getAttr (st v) sm)

/-- A concrete five-vertex path graph used by witness instances. -/
def pathGraph5 : DGraph Int :=
  ⟨[0, 1, 2, 3, 4], [(0, 1), (1, 2), (2, 3), (3, 4)]⟩

/-- The zero-initialised attribute state over integer-labelled k-mers. -/
def zeroStateInt : KState Int := fun _ => NodeData.zero

/-- Executable adjacency test along a list of exons. -/
def chainB (R : Exon → Exon → Bool) : List Exon → Bool
  | [] => true
  | [_] => true
  | a :: b :: l => R a b && chainB R (b :: l)

/-- The exon sequence that `expand_path_chains` feeds into its collapse loop
during the driver's post-processing: unroll the k-mer path, drop dummies,
normalise the strand, expand chains. -/
def expandedExons (tg : TGraph) (strand : Strand) (kmerPath : List (List Exon)) :
    List Exon :=
  let path := kmerPath.headD [] ++ (kmerPath.tail.map (fun km => km.getLastD default))
  let path2 := path.filter (fun n => decide (0 ≤ n.start))
  let path3 := if strand = Strand.neg then path2.reverse else path2
  path3.flatMap tg.chain

/-- A transcript graph whose chains are the identity (each vertex expands to
itself), used by witness instances. -/
def idChainTG : TGraph :=
  ⟨⟨[], []⟩, fun v => [v], fun _ => 0⟩

/-- A two-exon transcript graph with identity chains, used to probe the
driver's input handling. -/
def twoExonTG : TGraph :=
  ⟨⟨[⟨0, 1⟩, ⟨1, 2⟩], [(⟨0, 1⟩, ⟨1, 2⟩)]⟩, fun v => [v], fun _ => 0⟩

/-- The uniqueness property of C3 at a given graph and k-mer size: the
source dummy tuple is the unique in-degree-0 vertex of the k-mer graph and
the sink dummy tuple its unique out-degree-0 vertex. -/
def UniqueSourceSinkAt (G : DGraph Exon) (k : Nat) : Prop :=
  (sourceDummies k ∈ (kmerGraph (addDummyStartEndNodes G k) k).vertices ∧
    ∀ u ∈ (kmerGraph (addDummyStartEndNodes G k) k).vertices,
      (inDegree (kmerGraph (addDummyStartEndNodes G k) k) u = 0 ↔
        u = sourceDummies k)) ∧
  (sinkDummies k ∈ (kmerGraph (addDummyStartEndNodes G k) k).vertices ∧
    ∀ u ∈ (kmerGraph (addDummyStartEndNodes G k) k).vertices,
      (outDegree (kmerGraph (addDummyStartEndNodes G k) k) u = 0 ↔
        u = sinkDummies k))

theorem mem_successors {V : Type} [DecidableEq V] {G : DGraph V} {v s : V} :
    s ∈ successors G v ↔ (v, s) ∈ G.edges := by
  unfold successors
  simp only [List.mem_map, List.mem_filter, decide_eq_true_eq]
  constructor
  · rintro ⟨⟨a, b⟩, ⟨hmem, hfst⟩, hsnd⟩
    simp only at hfst hsnd
    rw [← hfst, ← hsnd]; exact hmem
  · intro h
    exact ⟨(v, s), ⟨h, rfl⟩, rfl⟩

theorem mem_predecessors {V : Type} [DecidableEq V] {G : DGraph V} {v p : V} :
    p ∈ predecessors G v ↔ (p, v) ∈ G.edges := by
  unfold predecessors
  simp only [List.mem_map, List.mem_filter, decide_eq_true_eq]
  constructor
  · rintro ⟨⟨a, b⟩, ⟨hmem, hsnd⟩, hfst⟩
    simp only at hfst hsnd
    rw [← hfst, ← hsnd]; exact hmem
  · intro h
    exact ⟨(p, v), ⟨h, rfl⟩, rfl⟩

theorem successors_eq_nil_iff {V : Type} [DecidableEq V] {G : DGraph V} {v : V} :
    successors G v = [] ↔ ∀ s, (v, s) ∉ G.edges := by
  rw [List.eq_nil_iff_forall_not_mem]
  constructor
  · intro h s hs; exact h s (mem_successors.mpr hs)
  · intro h s hs; exact h s (mem_successors.mp hs)

theorem predecessors_eq_nil_iff {V : Type} [DecidableEq V] {G : DGraph V} {v : V} :
    predecessors G v = [] ↔ ∀ p, (p, v) ∉ G.edges := by
  rw [List.eq_nil_iff_forall_not_mem]
  constructor
  · intro h p hp; exact h p (mem_predecessors.mpr hp)
  · intro h p hp; exact h p (mem_predecessors.mp hp)

/-- `IsWalk` unfolded to Mathlib's `Chain'` predicate, the form the proofs
use. -/
theorem isWalk_iff_chain {V : Type} [DecidableEq V] {G : DGraph V} {p : List V} :
    IsWalk G p ↔ List.Chain' (fun a b => (a, b) ∈ G.edges) p := by
  induction p with
  | nil => simp [IsWalk, isWalkB]
  | cons a l ih =>
      cases l with
      | nil => simp [IsWalk, isWalkB]
      | cons b l' =>
          rw [List.chain'_cons, ← ih]
          simp [IsWalk, isWalkB]

theorem nodup_of_isWalk {V : Type} [DecidableEq V] {G : DGraph V}
    (hacy : Acyclic G) {p : List V} (hw : IsWalk G p) : p.Nodup := by
  obtain ⟨f, hf⟩ := hacy
  rw [isWalk_iff_chain] at hw
  have hchain : List.Chain' (fun a b => f a < f b) p := by
    exact List.Chain'.imp (fun a b hab => hf (a, b) hab) hw
  haveI : IsTrans V (fun a b => f a < f b) := ⟨fun _ _ _ h1 h2 => lt_trans h1 h2⟩
  have hpw : List.Pairwise (fun a b => f a < f b) p :=
    List.chain'_iff_pairwise.mp hchain
  exact hpw.imp (fun {a b} h => by
    intro hab
    rw [hab] at h
    exact lt_irrefl _ h)

/-- Along a walk, the rank of the first vertex is minimal. -/
theorem rank_head_le_of_walk {V : Type} [DecidableEq V] {G : DGraph V}
    {f : V → Nat} (hf : ∀ e ∈ G.edges, f e.1 < f e.2) :
    ∀ {p : List V}, IsWalk G p → ∀ x ∈ p, ∀ h0 : p ≠ [], f (p.head h0) ≤ f x := by
  intro p
  induction p with
  | nil => intro _ x hx; exact absurd hx (List.not_mem_nil x)
  | cons a l ih =>
      intro hw x hx h0
      simp only [List.head_cons]
      rcases List.mem_cons.mp hx with rfl | hxl
      · exact le_refl _
      · cases l with
        | nil => exact absurd hxl (List.not_mem_nil x)
        | cons b l' =>
            rw [isWalk_iff_chain, List.chain'_cons] at hw
            have hab : f a < f b := hf (a, b) hw.1
            have hwl : IsWalk G (b :: l') := isWalk_iff_chain.mpr hw.2
            have := ih hwl x hxl (by simp)
            simp only [List.head_cons] at this
            omega

/-- Along a walk, the rank of the last vertex is maximal. -/
theorem rank_le_getLast_of_walk {V : Type} [DecidableEq V] {G : DGraph V}
    {f : V → Nat} (hf : ∀ e ∈ G.edges, f e.1 < f e.2) :
    ∀ {p : List V}, IsWalk G p → ∀ x ∈ p, ∀ h0 : p ≠ [], f x ≤ f (p.getLast h0) := by
  intro p
  induction p with
  | nil => intro _ x hx; exact absurd hx (List.not_mem_nil x)
  | cons a l ih =>
      intro hw x hx h0
      cases l with
      | nil =>
          rcases List.mem_cons.mp hx with rfl | hxl
          · simp
          · exact absurd hxl (List.not_mem_nil x)
      | cons b l' =>
          rw [isWalk_iff_chain, List.chain'_cons] at hw
          have hab : f a < f b := hf (a, b) hw.1
          have hwl : IsWalk G (b :: l') := isWalk_iff_chain.mpr hw.2
          rw [List.getLast_cons (by simp : (b :: l') ≠ [])]
          rcases List.mem_cons.mp hx with rfl | hxl
          · have := ih hwl b (by simp) (by simp)
            omega
          · exact ih hwl x hxl (by simp)

/-- A nonempty well-formed DAG has a vertex with no outgoing edge. -/
theorem exists_sink {V : Type} [DecidableEq V] {G : DGraph V}
    (hne : G.vertices ≠ []) (hacy : Acyclic G) (hwf : WellFormed G) :
    ∃ v ∈ G.vertices, successors G v = [] := by
  obtain ⟨f, hf⟩ := hacy
  have hfs : G.vertices.toFinset.Nonempty := by
    rcases List.exists_mem_of_ne_nil G.vertices hne with ⟨v, hv⟩
    exact ⟨v, List.mem_toFinset.mpr hv⟩
  obtain ⟨v, hv, hmax⟩ := Finset.exists_max_image G.vertices.toFinset f hfs
  refine ⟨v, List.mem_toFinset.mp hv, ?_⟩
  rw [successors_eq_nil_iff]
  intro s hs
  have h1 : f v < f s := hf (v, s) hs
  have h2 : s ∈ G.vertices := (hwf.2.2 (v, s) hs).2
  have h3 : f s ≤ f v := hmax s (List.mem_toFinset.mpr h2)
  omega

/-- A nonempty well-formed DAG has a vertex with no incoming edge. -/
theorem exists_source {V : Type} [DecidableEq V] {G : DGraph V}
    (hne : G.vertices ≠ []) (hacy : Acyclic G) (hwf : WellFormed G) :
    ∃ v ∈ G.vertices, predecessors G v = [] := by
  obtain ⟨f, hf⟩ := hacy
  have hfs : G.vertices.toFinset.Nonempty := by
    rcases List.exists_mem_of_ne_nil G.vertices hne with ⟨v, hv⟩
    exact ⟨v, List.mem_toFinset.mpr hv⟩
  obtain ⟨v, hv, hmin⟩ := Finset.exists_min_image G.vertices.toFinset f hfs
  refine ⟨v, List.mem_toFinset.mp hv, ?_⟩
  rw [predecessors_eq_nil_iff]
  intro p hp
  have h1 : f p < f v := hf (p, v) hp
  have h2 : p ∈ G.vertices := (hwf.2.2 (p, v) hp).1
  have h3 : f v ≤ f p := hmin p (List.mem_toFinset.mpr h2)
  omega

/-- C7: strand normalisation.  Reconstructing a walk discovered on the
reverse strand (where the path finder emits it in reversed, large-to-small
coordinate order) gives exactly the forward-strand reconstruction of the
same walk: `expand_path_chains` reverses the sequence first on `NEG_STRAND`,
so both runs produce the output in the same (increasing) coordinate order. -/
theorem expandPathChains_strand_normalisation (tg : TGraph) (p : List Exon) :
    expandPathChains tg Strand.neg p.reverse = expandPathChains tg Strand.pos p := by
  simp [expandPathChains]

/-- C8: the k-mer size used by `assemble_transcript_graph`.  The code first
clamps `kmax` to at least 2 and then takes `max(2, min(kmax, longest))`; this
equals the specification's formula `max(2, min(kmax, L*))` with the
unclamped `kmax`, so a caller-supplied `kmax < 2` behaves exactly like 2.
(`assembleCore` computes `k` as `chooseK kmax L*` with `L*` the maximum
partial-path length, via `selectK`.) -/
theorem chooseK_eq_spec (kmax longest : Int) :
    chooseK kmax longest = max 2 (min kmax longest) := by
  unfold chooseK
  omega

/-- C4 (divergence witness): on an empty `partial_paths` list the driver does
not return an empty result; `max(len(x[0]) for x in partial_paths)` raises
`ValueError` before anything else happens, for every graph, strand, finder
and parameter values. -/
theorem assemble_empty_evidence_raises
    (finder : DGraph (List Exon) → KState Exon → ℚ → Nat → List (List (List Exon) × ℚ))
    (tg : TGraph) (strand : Strand) (kmax : Int) (fmp : ℚ) (maxPaths : Nat) :
    assembleTranscriptGraph finder tg strand [] kmax fmp maxPaths =
      Except.error AsmError.valueError := rfl

/-- Helper: `headD` and `tail` reassemble a nonempty list. -/
theorem headD_cons_tail {V : Type} [Inhabited V] {l : List V} (h : l ≠ []) :
    l.headD default :: l.tail = l := by
  cases l with
  | nil => exact absurd rfl h
  | cons a t => rfl

/-- Helper: `dropLast` and `getLastD` reassemble a nonempty list. -/
theorem dropLast_append_getLastD {V : Type} [Inhabited V] {l : List V} (h : l ≠ []) :
    l.dropLast ++ [l.getLastD default] = l := by
  have := List.dropLast_append_getLast h
  rw [List.getLastD_eq_getLast?, List.getLast?_eq_getLast l h]
  exact this

/-- Helper: `getLastD` ignores its default on a nonempty list. -/
theorem getLastD_eq_of_ne_nil {V : Type} {l : List V} (h : l ≠ []) (d1 d2 : V) :
    l.getLastD d1 = l.getLastD d2 := by
  rw [List.getLastD_eq_getLast?, List.getLastD_eq_getLast?,
    List.getLast?_eq_getLast l h]
  rfl

/-- Helper: `getLastD` of a cons with a nonempty tail. -/
theorem getLastD_cons_of_ne_nil {V : Type} [Inhabited V] {l : List V} (h : l ≠ [])
    (a : V) : (a :: l).getLastD default = l.getLastD default := by
  cases l with
  | nil => exact absurd rfl h
  | cons b t =>
      rw [List.getLastD_eq_getLast?, List.getLastD_eq_getLast?,
        List.getLast?_cons_cons]

/-- Helper: `Chain'` on a cons is `Chain` anchored at the head. -/
theorem chain'_cons_iff_chain {V : Type} {R : V → V → Prop} {a : V} {l : List V} :
    List.Chain' R (a :: l) ↔ List.Chain R a l := Iff.rfl

/-- The forward k-mer enumeration hits exactly the `n`-step forward walk
extensions of the (nonempty) seed path. -/
theorem mem_getForwardKmersAux {V : Type} [DecidableEq V] [Inhabited V]
    {G : DGraph V} :
    ∀ (n : Nat) (p : List V), p ≠ [] → ∀ r : List V,
      (r ∈ getForwardKmersAux G n p ↔
        ∃ q : List V, q.length = n ∧
          List.Chain (fun a b => (a, b) ∈ G.edges) (p.getLastD default) q ∧
          r = p ++ q) := by
  intro n
  induction n with
  | zero =>
      intro p hp r
      simp only [getForwardKmersAux, List.mem_singleton]
      constructor
      · rintro rfl
        exact ⟨[], rfl, List.Chain.nil, by simp⟩
      · rintro ⟨q, hq, _, rfl⟩
        rw [List.length_eq_zero] at hq
        simp [hq]
  | succ n ih =>
      intro p hp r
      simp only [getForwardKmersAux, List.mem_flatMap]
      constructor
      · rintro ⟨s, hs, hr⟩
        rw [ih (p ++ [s]) (by simp) r] at hr
        obtain ⟨q', hlen, hchain, rfl⟩ := hr
        refine ⟨s :: q', by simp [hlen], ?_, by simp⟩
        rw [List.chain_cons]
        have hlast : (p ++ [s]).getLastD default = s := by
          rw [List.getLastD_eq_getLast?, List.getLast?_concat]
          rfl
        rw [hlast] at hchain
        exact ⟨mem_successors.mp hs, hchain⟩
      · rintro ⟨q, hlen, hchain, rfl⟩
        cases q with
        | nil => simp at hlen
        | cons s q' =>
            rw [List.chain_cons] at hchain
            refine ⟨s, mem_successors.mpr hchain.1, ?_⟩
            rw [ih (p ++ [s]) (by simp) _]
            refine ⟨q', by simpa using hlen, ?_, by simp⟩
            have hlast : (p ++ [s]).getLastD default = s := by
              rw [List.getLastD_eq_getLast?, List.getLast?_concat]
              rfl
            rw [hlast]
            exact hchain.2

/-- Membership in `kmerNodes G k` (for `k ≥ 1`): exactly the length-`k` walks
of `G` whose first vertex is a node of `G`. -/
theorem mem_kmerNodes {V : Type} [DecidableEq V] [Inhabited V] {G : DGraph V}
    {k : Nat} (hk : 1 ≤ k) {w : List V} :
    w ∈ kmerNodes G k ↔
      w ≠ [] ∧ w.length = k ∧ IsWalk G w ∧ w.headD default ∈ G.vertices := by
  unfold kmerNodes getForwardKmers
  simp only [List.mem_flatMap]
  constructor
  · rintro ⟨n, hn, hw⟩
    rw [mem_getForwardKmersAux (k - [n].length) [n] (by simp) w] at hw
    obtain ⟨q, hlen, hchain, rfl⟩ := hw
    simp only [List.length_singleton] at hlen
    refine ⟨by simp, ?_, ?_, by simpa using hn⟩
    · simp only [List.length_append, List.length_singleton, hlen]
      omega
    · rw [isWalk_iff_chain]
      simpa [chain'_cons_iff_chain] using hchain
  · rintro ⟨hne, hlen, hwalk, hhead⟩
    refine ⟨w.headD default, hhead, ?_⟩
    rw [mem_getForwardKmersAux (k - [w.headD default].length) _ (by simp) w]
    refine ⟨w.tail, ?_, ?_, ?_⟩
    · simp only [List.length_singleton]
      have := List.length_tail w
      omega
    · rw [isWalk_iff_chain] at hwalk
      have hw' : w.headD default :: w.tail = w := headD_cons_tail hne
      rw [← hw'] at hwalk
      rw [chain'_cons_iff_chain] at hwalk
      simpa using hwalk
    · simp only [List.singleton_append]
      exact (headD_cons_tail hne).symm

/-- Every k-mer (for `k ≥ 1`) is a nonempty length-`k` walk. -/
theorem kmer_shape {V : Type} [DecidableEq V] [Inhabited V] {G : DGraph V}
    {k : Nat} (hk : 1 ≤ k) {w : List V} (hw : w ∈ kmerNodes G k) :
    w ≠ [] ∧ w.length = k ∧ IsWalk G w :=
  ((mem_kmerNodes hk).mp hw).imp id (fun h => ⟨h.1, h.2.1⟩)

/-- Characterisation of `create_kmer_graph`'s edge list for `k ≥ 2`: between
k-mer vertices `u` and `v` there is an edge exactly when the (k-1)-suffix of
`u` (`u[1:]`) equals the (k-1)-prefix of `v` (`v[:-1]`) and the trailing
vertices are joined by an edge of `G`. -/
theorem mem_kmerGraphEdges_iff {V : Type} [DecidableEq V] [Inhabited V]
    {G : DGraph V} {k : Nat} (hk : 2 ≤ k) {u v : List V}
    (hu : u ∈ kmerNodes G k) (hv : v ∈ kmerNodes G k) :
    (u, v) ∈ kmerGraphEdges G k ↔
      u.tail = v.dropLast ∧
        (u.getLastD default, v.getLastD default) ∈ G.edges := by
  have hk1 : 1 ≤ k := by omega
  obtain ⟨hune, hulen, huwalk⟩ := kmer_shape hk1 hu
  obtain ⟨hvne, hvlen, hvwalk⟩ := kmer_shape hk1 hv
  unfold kmerGraphEdges
  simp only [List.mem_flatMap, List.mem_dedup, List.mem_append, List.mem_map,
    List.mem_filter, decide_eq_true_eq, Prod.mk.injEq]
  constructor
  · rintro ⟨m, _, f, ⟨⟨w2, ⟨hw2mem, hw2drop⟩, hw2last⟩, r, ⟨⟨w1, ⟨hw1mem, hw1tail⟩,
      hw1head⟩, hru, hmv⟩⟩⟩
    obtain ⟨hw2ne, hw2len, hw2walk⟩ := kmer_shape hk1 hw2mem
    have hw2eq : w2 = m ++ [f] := by
      rw [← hw2drop, ← hw2last]
      exact (dropLast_append_getLastD hw2ne).symm
    have hveq : v = m ++ [f] := by rw [← hmv]
    have hmne : m ≠ [] := by
      intro hm
      rw [hm] at hveq
      simp at hveq
      rw [hveq] at hvlen
      simp at hvlen
      omega
    constructor
    · rw [← hru, ← hmv]
      simp [List.dropLast_concat]
    · have hulast : u.getLastD default = m.getLastD default := by
        rw [← hru]
        exact getLastD_cons_of_ne_nil hmne r
      have hvlast : v.getLastD default = f := by
        rw [hveq, List.getLastD_eq_getLast?, List.getLast?_concat]
        rfl
      rw [hulast, hvlast]
      have : IsWalk G (m ++ [f]) := by rw [← hveq]; exact hvwalk
      rw [isWalk_iff_chain, List.chain'_append] at this
      have hlast := this.2.2 (m.getLastD default) ?_ f (by simp)
      · exact hlast
      · rw [List.getLastD_eq_getLast?, List.getLast?_eq_getLast m hmne]
        simp [List.getLast?_eq_getLast m hmne]
  · rintro ⟨htail, hedge⟩
    refine ⟨u.tail, Or.inl ⟨u, hu, rfl⟩,
      v.getLastD default, ⟨v, ⟨hv, htail.symm⟩, rfl⟩,
      u.headD default, ⟨u, ⟨hu, rfl⟩, rfl⟩, headD_cons_tail hune, ?_⟩
    rw [htail]
    exact dropLast_append_getLastD hvne

/-- C1 (amended to `k ≥ 2`, the only sizes the driver uses): in the k-mer
graph `K = create_kmer_graph(G, k)`, two K-vertices `u` and `v` are joined
by an edge iff the (k-1)-suffix of `u` equals the (k-1)-prefix of `v` and
the trailing vertex of `u` points to the trailing vertex of `v` in `G`.  No
acyclicity of `G` is needed. -/
theorem kmerGraph_edge_iff {V : Type} [DecidableEq V] [Inhabited V]
    (G : DGraph V) (k : Nat) (hk : 2 ≤ k) (u v : List V)
    (hu : u ∈ (kmerGraph G k).vertices) (hv : v ∈ (kmerGraph G k).vertices) :
    (u, v) ∈ (kmerGraph G k).edges ↔
      u.tail = v.dropLast ∧
        (u.getLastD default, v.getLastD default) ∈ G.edges :=
  mem_kmerGraphEdges_iff hk hu hv

/-- Witness for C1 on the path graph `0 → 1 → 2` with `k = 2`: the k-mers are
`[0,1]` and `[1,2]`, and the edge between them satisfies the
characterisation. -/
theorem kmerGraph_edge_iff_witness :
    ((2 ≤ 2 ∧
        ([0, 1] : List Int) ∈ (kmerGraph (⟨[0, 1, 2], [(0, 1), (1, 2)]⟩ : DGraph Int) 2).vertices ∧
        ([1, 2] : List Int) ∈ (kmerGraph (⟨[0, 1, 2], [(0, 1), (1, 2)]⟩ : DGraph Int) 2).vertices) ∧
      ((([0, 1] : List Int), ([1, 2] : List Int)) ∈ (kmerGraph (⟨[0, 1, 2], [(0, 1), (1, 2)]⟩ : DGraph Int) 2).edges ↔
        List.tail ([0, 1] : List Int) = List.dropLast ([1, 2] : List Int) ∧
          ((List.getLastD ([0, 1] : List Int) default, List.getLastD ([1, 2] : List Int) default) ∈
            (⟨[0, 1, 2], [(0, 1), (1, 2)]⟩ : DGraph Int).edges))) :=
  ⟨⟨by decide, by decide, by decide⟩,
    kmerGraph_edge_iff (⟨[0, 1, 2], [(0, 1), (1, 2)]⟩ : DGraph Int) 2 (by decide)
      [0, 1] [1, 2] (by decide) (by decide)⟩

/-- Counterexample to C1 as stated (without a lower bound on `k`): with
`k = 1` on the edgeless graph with vertices `0` and `1`, `create_kmer_graph`
connects every pair of 1-mers through the empty (k-1)-mer hash key, so the
edge `[0] → [1]` exists although `0 → 1` is not an edge of `G`; the claimed
equivalence fails. -/
theorem kmerGraph_edge_iff_counterexample :
    ¬ ((([0], [1]) ∈ (kmerGraph (⟨[0, 1], []⟩ : DGraph Int) 1).edges) ↔
        (List.tail [0] = List.dropLast [1] ∧
          ((List.getLastD [0] default, List.getLastD [1] default) ∈
            (⟨[0, 1], []⟩ : DGraph Int).edges))) := by
  decide

/-- Helper: a duplicate-free list contained in `l` is no longer than `l`. -/
theorem nodup_length_le {V : Type} [DecidableEq V] {p l : List V} (hp : p.Nodup)
    (hsub : ∀ x ∈ p, x ∈ l) : p.length ≤ l.length := by
  have h1 : p.toFinset.card = p.length := by
    rw [List.card_toFinset, List.dedup_eq_self.mpr hp]
  have h2 : p.toFinset ⊆ l.toFinset := by
    intro x hx
    exact List.mem_toFinset.mpr (hsub x (List.mem_toFinset.mp hx))
  calc p.length = p.toFinset.card := h1.symm
    _ ≤ l.toFinset.card := Finset.card_le_card h2
    _ ≤ l.length := List.toFinset_card_le l

/-- Helper: `headD` agrees with `head` on a nonempty list. -/
theorem headD_eq_head {V : Type} [Inhabited V] {p : List V} (h : p ≠ []) :
    p.headD default = p.head h := by
  cases p with
  | nil => exact absurd rfl h
  | cons a t => rfl

/-- Helper: `getLastD` agrees with `getLast` on a nonempty list. -/
theorem getLastD_eq_getLast {V : Type} [Inhabited V] {p : List V} (h : p ≠ []) :
    p.getLastD default = p.getLast h := by
  rw [List.getLastD_eq_getLast?, List.getLast?_eq_getLast p h]
  rfl

/-- The backward `while len(preds) == 1` loop terminates on any
repetition-free walk through a DAG given fuel `|V| + 1 - len(p)` or more,
and returns a repetition-free walk again. -/
theorem extendBackwardLoop_spec {V : Type} [DecidableEq V] [Inhabited V]
    {G : DGraph V} {f : V → Nat} (hf : ∀ e ∈ G.edges, f e.1 < f e.2)
    (hwf : ∀ e ∈ G.edges, e.1 ∈ G.vertices ∧ e.2 ∈ G.vertices) :
    ∀ (fuel : Nat) (p : List V), p ≠ [] → IsWalk G p → p.Nodup →
      (∀ x ∈ p, x ∈ G.vertices) → G.vertices.length + 1 ≤ fuel + p.length →
      ∃ p', extendBackwardLoop G fuel p = some p' ∧ p' ≠ [] ∧ IsWalk G p' ∧
        p'.Nodup ∧ ∀ x ∈ p', x ∈ G.vertices := by
  intro fuel
  induction fuel with
  | zero =>
      intro p hne hwalk hnd hsub hfuel
      exfalso
      have := nodup_length_le hnd hsub
      omega
  | succ fuel ih =>
      intro p hne hwalk hnd hsub hfuel
      match hpred : predecessors G (p.headD default) with
      | [] =>
          exact ⟨p, by simp only [extendBackwardLoop, hpred], hne, hwalk, hnd, hsub⟩
      | q1 :: q2 :: qs =>
          exact ⟨p, by simp only [extendBackwardLoop, hpred], hne, hwalk, hnd, hsub⟩
      | [q] =>
          have hedge : (q, p.headD default) ∈ G.edges := by
            apply mem_predecessors.mp
            rw [hpred]
            exact List.mem_singleton.mpr rfl
          have hqnot : q ∉ p := by
            intro hq
            have h1 : f q < f (p.headD default) := hf (q, p.headD default) hedge
            have h2 : f (p.headD default) ≤ f q := by
              rw [headD_eq_head hne]
              exact rank_head_le_of_walk hf hwalk q hq hne
            omega
          have hwalk' : IsWalk G (q :: p) := by
            rw [isWalk_iff_chain]
            cases p with
            | nil => exact absurd rfl hne
            | cons h t =>
                rw [List.chain'_cons]
                exact ⟨by simpa using hedge, isWalk_iff_chain.mp hwalk⟩
          have hnd' : (q :: p).Nodup := List.nodup_cons.mpr ⟨hqnot, hnd⟩
          have hsub' : ∀ x ∈ q :: p, x ∈ G.vertices := by
            intro x hx
            rcases List.mem_cons.mp hx with rfl | hx
            · exact (hwf (x, p.headD default) hedge).1
            · exact hsub x hx
          obtain ⟨p', heq, hp'⟩ := ih (q :: p) (by simp) hwalk' hnd' hsub'
            (by simp only [List.length_cons]; omega)
          refine ⟨p', ?_, hp'⟩
          simp only [extendBackwardLoop, hpred]
          exact heq

/-- The forward `while len(succs) == 1` loop terminates on any
repetition-free walk through a DAG, with the same fuel bound. -/
theorem extendForwardLoop_spec {V : Type} [DecidableEq V] [Inhabited V]
    {G : DGraph V} {f : V → Nat} (hf : ∀ e ∈ G.edges, f e.1 < f e.2)
    (hwf : ∀ e ∈ G.edges, e.1 ∈ G.vertices ∧ e.2 ∈ G.vertices) :
    ∀ (fuel : Nat) (p : List V), p ≠ [] → IsWalk G p → p.Nodup →
      (∀ x ∈ p, x ∈ G.vertices) → G.vertices.length + 1 ≤ fuel + p.length →
      ∃ p', extendForwardLoop G fuel p = some p' := by
  intro fuel
  induction fuel with
  | zero =>
      intro p hne hwalk hnd hsub hfuel
      exfalso
      have := nodup_length_le hnd hsub
      omega
  | succ fuel ih =>
      intro p hne hwalk hnd hsub hfuel
      match hsucc : successors G (p.getLastD default) with
      | [] => exact ⟨p, by simp only [extendForwardLoop, hsucc]⟩
      | s1 :: s2 :: ss => exact ⟨p, by simp only [extendForwardLoop, hsucc]⟩
      | [s] =>
          have hedge : (p.getLastD default, s) ∈ G.edges := by
            apply mem_successors.mp
            rw [hsucc]
            exact List.mem_singleton.mpr rfl
          have hsnot : s ∉ p := by
            intro hs
            have h1 : f (p.getLastD default) < f s := hf (p.getLastD default, s) hedge
            have h2 : f s ≤ f (p.getLastD default) := by
              rw [getLastD_eq_getLast hne]
              exact rank_le_getLast_of_walk hf hwalk s hs hne
            omega
          have hwalk' : IsWalk G (p ++ [s]) := by
            rw [isWalk_iff_chain, List.chain'_append]
            refine ⟨isWalk_iff_chain.mp hwalk, by simp, ?_⟩
            intro x hx y hy
            simp only [List.head?_cons, Option.mem_def, Option.some.injEq] at hy
            rw [List.getLast?_eq_getLast p hne, Option.mem_def, Option.some.injEq] at hx
            rw [← hy, ← hx, ← getLastD_eq_getLast hne]
            exact hedge
          have hnd' : (p ++ [s]).Nodup := by
            rw [List.nodup_append]
            exact ⟨hnd, List.nodup_singleton s, by
              intro x hx
              simp only [List.mem_singleton]
              intro hxs
              rw [hxs] at hx
              exact hsnot hx⟩
          have hsub' : ∀ x ∈ p ++ [s], x ∈ G.vertices := by
            intro x hx
            rcases List.mem_append.mp hx with hx | hx
            · exact hsub x hx
            · rw [List.mem_singleton.mp hx]
              exact (hwf (p.getLastD default, s) hedge).2
          obtain ⟨p', heq⟩ := ih (p ++ [s]) (by simp) hwalk' hnd' hsub'
            (by simp only [List.length_append, List.length_singleton]; omega)
          refine ⟨p', ?_⟩
          simp only [extendForwardLoop, hsucc]
          exact heq

/-- C10: termination of `_extend_partial_paths`.  For a finite DAG `G` and a
nonempty partial path `p` that is a valid walk in `G`, both the backward
(`while len(preds) == 1`) and the forward (`while len(succs) == 1`) loop
terminate: a walk in a DAG cannot repeat a vertex, every prepend/append step
strictly lengthens a repetition-free path, and such paths are bounded by the
number of vertices of `G`, so fuel `|V(G)| + 1` always suffices. -/
theorem extendPartialPath_terminates {V : Type} [DecidableEq V] [Inhabited V]
    (G : DGraph V) (p : List V) (hacy : Acyclic G)
    (hwf : ∀ e ∈ G.edges, e.1 ∈ G.vertices ∧ e.2 ∈ G.vertices)
    (hne : p ≠ []) (hwalk : IsWalk G p) (hsub : ∀ x ∈ p, x ∈ G.vertices) :
    (extendPartialPath G (G.vertices.length + 1) p).isSome = true := by
  obtain ⟨f, hf⟩ := hacy
  have hnd : p.Nodup := nodup_of_isWalk ⟨f, hf⟩ hwalk
  obtain ⟨p1, heq1, hp1ne, hp1walk, hp1nd, hp1sub⟩ :=
    extendBackwardLoop_spec hf hwf (G.vertices.length + 1) p hne hwalk hnd hsub
      (by cases p with
        | nil => exact absurd rfl hne
        | cons a t => simp only [List.length_cons]; omega)
  obtain ⟨p2, heq2⟩ :=
    extendForwardLoop_spec hf hwf (G.vertices.length + 1) p1 hp1ne hp1walk
      hp1nd hp1sub
      (by cases p1 with
        | nil => exact absurd rfl hp1ne
        | cons a t => simp only [List.length_cons]; omega)
  unfold extendPartialPath
  rw [heq1]
  simp [heq2]

/-- Witness for C10 on the path graph `0 → 1 → 2` with partial path `[1]`:
the loops terminate with fuel `|V| + 1 = 4` (they produce `[0, 1, 2]`). -/
theorem extendPartialPath_terminates_witness :
    ((Acyclic (⟨[0, 1, 2], [(0, 1), (1, 2)]⟩ : DGraph Int) ∧
        IsWalk (⟨[0, 1, 2], [(0, 1), (1, 2)]⟩ : DGraph Int) [1]) ∧
      (extendPartialPath (⟨[0, 1, 2], [(0, 1), (1, 2)]⟩ : DGraph Int)
        ((⟨[0, 1, 2], [(0, 1), (1, 2)]⟩ : DGraph Int).vertices.length + 1)
        [1]).isSome = true) :=
  ⟨⟨⟨fun v => v.toNat, by decide⟩, by decide⟩,
    extendPartialPath_terminates (⟨[0, 1, 2], [(0, 1), (1, 2)]⟩ : DGraph Int)
      [1] ⟨fun v => v.toNat, by decide⟩ (by decide) (by decide) (by decide)
      (by decide)⟩

/-- The backward extension enumeration hits exactly the `n`-vertex backward
walk extensions of the head of the (nonempty) seed path. -/
theorem mem_extendRevAux {V : Type} [DecidableEq V] [Inhabited V]
    {G : DGraph V} :
    ∀ (n : Nat) (p : List V), p ≠ [] → ∀ r : List V,
      (r ∈ extendRevAux G n p ↔
        ∃ q : List V, q.length = n ∧
          List.Chain' (fun a b => (a, b) ∈ G.edges) (q ++ [p.headD default]) ∧
          r = q ++ p.dropLast) := by
  intro n
  induction n with
  | zero =>
      intro p hp r
      simp only [extendRevAux, List.mem_singleton]
      constructor
      · rintro rfl
        exact ⟨[], rfl, by simp, by simp⟩
      · rintro ⟨q, hq, _, rfl⟩
        rw [List.length_eq_zero] at hq
        simp [hq]
  | succ n ih =>
      intro p hp r
      simp only [extendRevAux, List.mem_flatMap]
      constructor
      · rintro ⟨x, hx, hr⟩
        rw [ih (x :: p) (by simp) r] at hr
        obtain ⟨q', hlen, hchain, rfl⟩ := hr
        have hxp : (x :: p).headD default = x := rfl
        rw [hxp] at hchain
        refine ⟨q' ++ [x], by simp [hlen], ?_, ?_⟩
        · rw [List.append_assoc, ← List.append_assoc q' [x] [p.headD default]]
          rw [List.chain'_append]
          refine ⟨hchain, by simp, ?_⟩
          intro a ha b hb
          rw [List.getLast?_concat, Option.mem_def, Option.some.injEq] at ha
          simp only [List.head?_cons, Option.mem_def, Option.some.injEq] at hb
          rw [← ha, ← hb]
          exact mem_predecessors.mp hx
        · cases p with
          | nil => exact absurd rfl hp
          | cons h t => simp
      · rintro ⟨q, hlen, hchain, rfl⟩
        have hqne : q ≠ [] := by
          intro hq
          rw [hq] at hlen
          simp at hlen
        set x := q.getLast hqne with hxdef
        have hqdecomp : q.dropLast ++ [x] = q := List.dropLast_append_getLast hqne
        have hchain2 : List.Chain' (fun a b => (a, b) ∈ G.edges)
            ((q.dropLast ++ [x]) ++ [p.headD default]) := by
          rw [hqdecomp]; exact hchain
        rw [List.chain'_append] at hchain2
        have hedge : (x, p.headD default) ∈ G.edges := by
          refine hchain2.2.2 x ?_ (p.headD default) (by simp)
          rw [List.getLast?_concat]
          rfl
        refine ⟨x, mem_predecessors.mpr hedge, ?_⟩
        rw [ih (x :: p) (by simp) _]
        refine ⟨q.dropLast, ?_, ?_, ?_⟩
        · have := List.length_dropLast q
          omega
        · have hxp : (x :: p).headD default = x := rfl
          rw [hxp]
          exact hchain2.1
        · cases p with
          | nil => exact absurd rfl hp
          | cons h t =>
              rw [← hqdecomp]
              simp

/-- The forward extension enumeration hits exactly the `n`-vertex forward
walk extensions of the last vertex of the (nonempty) seed path. -/
theorem mem_extendFwdAux {V : Type} [DecidableEq V] [Inhabited V]
    {G : DGraph V} :
    ∀ (n : Nat) (p : List V), p ≠ [] → ∀ r : List V,
      (r ∈ extendFwdAux G n p ↔
        ∃ q : List V, q.length = n ∧
          List.Chain (fun a b => (a, b) ∈ G.edges) (p.getLastD default) q ∧
          r = p.tail ++ q) := by
  intro n
  induction n with
  | zero =>
      intro p hp r
      simp only [extendFwdAux, List.mem_singleton]
      constructor
      · rintro rfl
        exact ⟨[], rfl, List.Chain.nil, by simp⟩
      · rintro ⟨q, hq, _, rfl⟩
        rw [List.length_eq_zero] at hq
        simp [hq]
  | succ n ih =>
      intro p hp r
      simp only [extendFwdAux, List.mem_flatMap]
      constructor
      · rintro ⟨s, hs, hr⟩
        rw [ih (p ++ [s]) (by simp) r] at hr
        obtain ⟨q', hlen, hchain, rfl⟩ := hr
        have hlast : (p ++ [s]).getLastD default = s := by
          rw [List.getLastD_eq_getLast?, List.getLast?_concat]
          rfl
        rw [hlast] at hchain
        refine ⟨s :: q', by simp [hlen], ?_, ?_⟩
        · rw [List.chain_cons]
          exact ⟨mem_successors.mp hs, hchain⟩
        · cases p with
          | nil => exact absurd rfl hp
          | cons h t => simp
      · rintro ⟨q, hlen, hchain, rfl⟩
        cases q with
        | nil => simp at hlen
        | cons s q' =>
            rw [List.chain_cons] at hchain
            refine ⟨s, mem_successors.mpr hchain.1, ?_⟩
            rw [ih (p ++ [s]) (by simp) _]
            refine ⟨q', by simpa using hlen, ?_, ?_⟩
            · have hlast : (p ++ [s]).getLastD default = s := by
                rw [List.getLastD_eq_getLast?, List.getLast?_concat]
                rfl
              rw [hlast]
              exact hchain.2
            · cases p with
              | nil => exact absurd rfl hp
              | cons h t => simp

/-- With a duplicate-free edge list, `predecessors` has no duplicates
(networkx predecessor sets). -/
theorem nodup_predecessors {V : Type} [DecidableEq V] {G : DGraph V}
    (hnd : G.edges.Nodup) (v : V) : (predecessors G v).Nodup := by
  unfold predecessors
  apply List.Nodup.map_on
  · intro x hx y hy hxy
    rw [List.mem_filter, decide_eq_true_eq] at hx hy
    cases x with
    | mk x1 x2 =>
        cases y with
        | mk y1 y2 =>
            simp only at hx hy hxy
            rw [Prod.mk.injEq]
            exact ⟨hxy, by rw [hx.2, hy.2]⟩
  · exact hnd.filter _

/-- With a duplicate-free edge list, `successors` has no duplicates. -/
theorem nodup_successors {V : Type} [DecidableEq V] {G : DGraph V}
    (hnd : G.edges.Nodup) (v : V) : (successors G v).Nodup := by
  unfold successors
  apply List.Nodup.map_on
  · intro x hx y hy hxy
    rw [List.mem_filter, decide_eq_true_eq] at hx hy
    cases x with
    | mk x1 x2 =>
        cases y with
        | mk y1 y2 =>
            simp only at hx hy hxy
            rw [Prod.mk.injEq]
            exact ⟨by rw [hx.2, hy.2], hxy⟩
  · exact hnd.filter _

/-- Every result of the backward extension enumeration ends in
`p.dropLast` after `n` vertices (shape lemma for disjointness). -/
theorem extendRevAux_shape {V : Type} [DecidableEq V] [Inhabited V]
    {G : DGraph V} {n : Nat} {p : List V} (hp : p ≠ []) {r : List V}
    (hr : r ∈ extendRevAux G n p) : r.drop n = p.dropLast := by
  rw [mem_extendRevAux n p hp r] at hr
  obtain ⟨q, hlen, _, rfl⟩ := hr
  rw [← hlen]
  exact List.drop_left q p.dropLast

/-- Every result of the forward extension enumeration starts with `p.tail`
(shape lemma for disjointness). -/
theorem extendFwdAux_shape {V : Type} [DecidableEq V] [Inhabited V]
    {G : DGraph V} {n : Nat} {p : List V} (hp : p ≠ []) {r : List V}
    (hr : r ∈ extendFwdAux G n p) : r.take p.tail.length = p.tail ∧
      r.drop p.tail.length ≠ [] ∨ (n = 0 ∧ r = p.tail) := by
  rw [mem_extendFwdAux n p hp r] at hr
  obtain ⟨q, hlen, _, rfl⟩ := hr
  cases q with
  | nil => right; exact ⟨by simpa using hlen.symm, by simp⟩
  | cons s q' =>
      left
      constructor
      · exact List.take_left p.tail (s :: q')
      · rw [List.drop_left p.tail (s :: q')]
        simp

/-- The backward extension enumeration is duplicate-free when the edge list
is. -/
theorem nodup_extendRevAux {V : Type} [DecidableEq V] [Inhabited V]
    {G : DGraph V} (hnd : G.edges.Nodup) :
    ∀ (n : Nat) (p : List V), p ≠ [] → (extendRevAux G n p).Nodup := by
  intro n
  induction n with
  | zero => intro p hp; exact List.nodup_singleton _
  | succ n ih =>
      intro p hp
      unfold extendRevAux
      rw [List.nodup_flatMap]
      constructor
      · intro x _
        exact ih (x :: p) (by simp)
      · have hpnd : (predecessors G (p.headD default)).Nodup :=
          nodup_predecessors hnd _
        refine hpnd.imp ?_
        intro x y hxy
        rw [Function.onFun, List.disjoint_left]
        intro r hrx hry
        have h1 : r.drop n = (x :: p).dropLast := extendRevAux_shape (by simp) hrx
        have h2 : r.drop n = (y :: p).dropLast := extendRevAux_shape (by simp) hry
        rw [h1] at h2
        cases p with
        | nil => exact absurd rfl hp
        | cons h t =>
            simp only [List.dropLast_cons₂] at h2
            exact hxy (by injection h2)

/-- The forward extension enumeration is duplicate-free when the edge list
is. -/
theorem nodup_extendFwdAux {V : Type} [DecidableEq V] [Inhabited V]
    {G : DGraph V} (hnd : G.edges.Nodup) :
    ∀ (n : Nat) (p : List V), p ≠ [] → (extendFwdAux G n p).Nodup := by
  intro n
  induction n with
  | zero => intro p hp; exact List.nodup_singleton _
  | succ n ih =>
      intro p hp
      unfold extendFwdAux
      rw [List.nodup_flatMap]
      constructor
      · intro x _
        exact ih (p ++ [x]) (by simp)
      · have hsnd : (successors G (p.getLastD default)).Nodup :=
          nodup_successors hnd _
        refine hsnd.imp ?_
        intro x y hxy
        rw [Function.onFun, List.disjoint_left]
        intro r hrx hry
        have hx' : ∀ s, r ∈ extendFwdAux G n (p ++ [s]) →
            ∃ q', r = p.tail ++ s :: q' := by
          intro s hr
          rw [mem_extendFwdAux n (p ++ [s]) (by simp) r] at hr
          obtain ⟨q', _, _, rfl⟩ := hr
          refine ⟨q', ?_⟩
          cases p with
          | nil => exact absurd rfl hp
          | cons h t => simp
        obtain ⟨q1, hq1⟩ := hx' x hrx
        obtain ⟨q2, hq2⟩ := hx' y hry
        rw [hq1] at hq2
        have := List.append_cancel_left hq2
        exact hxy (by injection this)

/-- Membership in `_get_partial_path_kmers`: exactly the concatenations of a
backward walk of `ceil(L/2)` vertices into `p[0]`, the path `p` itself, and
a forward walk of `floor(L/2)` vertices out of `p[-1]` (`L = k - len(p)`). -/
theorem mem_getPartialPathKmers {V : Type} [DecidableEq V] [Inhabited V]
    {G : DGraph V} {p : List V} (hp : p ≠ []) (k : Nat) (m : List V) :
    m ∈ getPartialPathKmers G p k ↔
      ∃ rp fp : List V, rp.length = (k - p.length + 1) / 2 ∧
        fp.length = (k - p.length) / 2 ∧
        IsWalk G (rp ++ [p.headD default]) ∧
        IsWalk G (p.getLastD default :: fp) ∧
        m = rp ++ p ++ fp := by
  unfold getPartialPathKmers extendPathReverse extendPathForward
  simp only [List.mem_flatMap, List.mem_map]
  constructor
  · rintro ⟨rp, hrp, fp, hfp, rfl⟩
    rw [mem_extendRevAux _ _ (by simp) _] at hrp
    obtain ⟨q, hqlen, hqchain, hq⟩ := hrp
    rw [mem_extendFwdAux _ _ (by simp) _] at hfp
    obtain ⟨q2, hq2len, hq2chain, hq2⟩ := hfp
    simp at hq hq2 hqchain hq2chain
    refine ⟨rp, fp, by rw [hq, hqlen], by rw [hq2, hq2len], ?_, ?_, rfl⟩
    · rw [isWalk_iff_chain, hq]
      simpa using hqchain
    · rw [isWalk_iff_chain, chain'_cons_iff_chain, hq2]
      simpa using hq2chain
  · rintro ⟨rp, fp, hrplen, hfplen, hrpwalk, hfpwalk, rfl⟩
    refine ⟨rp, ?_, fp, ?_, rfl⟩
    · rw [mem_extendRevAux _ _ (by simp) _]
      refine ⟨rp, hrplen, ?_, by simp⟩
      rw [isWalk_iff_chain] at hrpwalk
      simpa using hrpwalk
    · rw [mem_extendFwdAux _ _ (by simp) _]
      refine ⟨fp, hfplen, ?_, by simp⟩
      rw [isWalk_iff_chain, chain'_cons_iff_chain] at hfpwalk
      simpa using hfpwalk

/-- Results of the backward extension of a single-vertex seed have length
`n`. -/
theorem extendRevAux_singleton_length {V : Type} [DecidableEq V] [Inhabited V]
    {G : DGraph V} {n : Nat} {x : V} {r : List V}
    (hr : r ∈ extendRevAux G n [x]) : r.length = n := by
  rw [mem_extendRevAux n [x] (by simp) r] at hr
  obtain ⟨q, hqlen, _, rfl⟩ := hr
  simp [hqlen]

/-- The candidate k-mer list of `_get_partial_path_kmers` has no duplicates
when the edge list has none: the reverse and forward extension lists are
duplicate-free and every reverse extension has the same length, so distinct
pairs give distinct concatenations. -/
theorem nodup_getPartialPathKmers {V : Type} [DecidableEq V] [Inhabited V]
    {G : DGraph V} (hnd : G.edges.Nodup) (p : List V) (k : Nat) :
    (getPartialPathKmers G p k).Nodup := by
  unfold getPartialPathKmers extendPathReverse extendPathForward
  rw [List.nodup_flatMap]
  constructor
  · intro rp _
    apply List.Nodup.map_on
    · intro fp1 _ fp2 _ heq
      exact List.append_cancel_left heq
    · exact nodup_extendFwdAux hnd _ _ (by simp)
  · have hrpnd := nodup_extendRevAux hnd ((k - p.length + 1) / 2)
      [p.headD default] (by simp)
    refine List.Pairwise.imp_of_mem ?_ hrpnd
    intro rp1 rp2 hrp1 hrp2 hne12
    intro m hm1 hm2
    rw [List.mem_map] at hm1 hm2
    obtain ⟨fp1, _, hm1eq⟩ := hm1
    obtain ⟨fp2, _, hm2eq⟩ := hm2
    have hl1 := extendRevAux_singleton_length hrp1
    have hl2 := extendRevAux_singleton_length hrp2
    have heq : rp1 ++ (p ++ fp1) = rp2 ++ (p ++ fp2) := by
      rw [← List.append_assoc, ← List.append_assoc, hm1eq, hm2eq]
    have := List.append_inj heq (by rw [hl1, hl2])
    exact hne12 this.1

/-- Folding a per-k-mer read-modify-write over a duplicate-free k-mer list:
each listed k-mer ends up with `g` applied to its original record (it is
touched exactly once, and the update only reads its own record), and
unlisted k-mers are untouched. -/
theorem foldl_updState_nodup {V : Type} [DecidableEq V]
    (g : NodeData → NodeData) :
    ∀ (M : List (List V)) (st : KState V), M.Nodup →
      (∀ m, m ∉ M →
        (M.foldl (fun st' x => updState st' x (g (st' x))) st) m = st m) ∧
      (∀ m ∈ M,
        (M.foldl (fun st' x => updState st' x (g (st' x))) st) m = g (st m)) := by
  intro M
  induction M with
  | nil => intro st _; exact ⟨fun m _ => rfl, fun m hm => absurd hm (List.not_mem_nil m)⟩
  | cons x rest ih =>
      intro st hnd
      rw [List.nodup_cons] at hnd
      obtain ⟨hx, hrest⟩ := hnd
      have hstep : ∀ y, updState st x (g (st x)) y =
          if y = x then g (st x) else st y := fun y => rfl
      obtain ⟨ihout, ihin⟩ := ih (updState st x (g (st x))) hrest
      constructor
      · intro m hm
        simp only [List.mem_cons, not_or] at hm
        rw [List.foldl_cons, ihout m hm.2, hstep, if_neg hm.1]
      · intro m hm
        rcases List.mem_cons.mp hm with rfl | hm
        · rw [List.foldl_cons, ihout m hx, hstep, if_pos rfl]
        · rw [List.foldl_cons, ihin m hm, hstep,
            if_neg (by intro heq; rw [heq] at hm; exact hx hm)]

/-- C2: attribution of a partial path shorter than `k`.  The candidate
k-mer set `M` (`_get_partial_path_kmers`) is the Cartesian product of the
backward extensions of `p[0]` of length `ceil((k - len p)/2)` and the
forward extensions of `p[-1]` of length `floor((k - len p)/2)` around `p`;
letting `T` be the sum of the current densities over `M`, the update adds
`d / |M|` to `density`, `smooth_fwd` and `smooth_rev` of every `m ∈ M` when
`T = 0`, and `d * density(m) / T` to the same three fields when `T ≠ 0`
(in particular when `T > 0`, the case the claim describes). -/
theorem attributeShort_spec {V : Type} [DecidableEq V] [Inhabited V]
    (G : DGraph V) (k : Nat) (st : KState V) (p : List V) (d : ℚ)
    (hlen : p.length < k) (hp : p ≠ []) (hnd : G.edges.Nodup)
    (hne : getPartialPathKmers G p k ≠ []) :
    (∀ m, m ∈ getPartialPathKmers G p k ↔
      ∃ rp fp : List V, rp.length = (k - p.length + 1) / 2 ∧
        fp.length = (k - p.length) / 2 ∧
        IsWalk G (rp ++ [p.headD default]) ∧
        IsWalk G (p.getLastD default :: fp) ∧
        m = rp ++ p ++ fp) ∧
    (((getPartialPathKmers G p k).map (fun x => (st x).density)).sum = 0 →
      ∀ m ∈ getPartialPathKmers G p k,
        attributeOne G k st (p, d) m =
          addThree (st m) (d / ((getPartialPathKmers G p k).length : ℚ))) ∧
    (((getPartialPathKmers G p k).map (fun x => (st x).density)).sum ≠ 0 →
      ∀ m ∈ getPartialPathKmers G p k,
        attributeOne G k st (p, d) m =
          addThree (st m) (d * (st m).density /
            ((getPartialPathKmers G p k).map (fun x => (st x).density)).sum)) ∧
    (∀ m, m ∉ getPartialPathKmers G p k →
      attributeOne G k st (p, d) m = st m) := by
  have hone : attributeOne G k st (p, d) = attributeShort G k st p d := by
    unfold attributeOne
    rw [if_pos hlen]
  have hMnd := nodup_getPartialPathKmers hnd p k
  refine ⟨fun m => mem_getPartialPathKmers hp k m, ?_, ?_, ?_⟩
  · intro hT m hm
    rw [hone]
    unfold attributeShort
    rw [if_pos hT]
    exact (foldl_updState_nodup
      (fun a => addThree a (d / ((getPartialPathKmers G p k).length : ℚ)))
      (getPartialPathKmers G p k) st hMnd).2 m hm
  · intro hT m hm
    rw [hone]
    unfold attributeShort
    rw [if_neg hT]
    have := (foldl_updState_nodup
      (fun a => addThree a
        (a.density / ((getPartialPathKmers G p k).map (fun x => (st x).density)).sum * d))
      (getPartialPathKmers G p k) st hMnd).2 m hm
    rw [this]
    have harith : (st m).density /
        ((getPartialPathKmers G p k).map (fun x => (st x).density)).sum * d =
        d * (st m).density /
          ((getPartialPathKmers G p k).map (fun x => (st x).density)).sum := by
      ring
    rw [harith]
  · intro m hm
    rw [hone]
    unfold attributeShort
    by_cases hT : ((getPartialPathKmers G p k).map (fun x => (st x).density)).sum = 0
    · rw [if_pos hT]
      exact (foldl_updState_nodup
        (fun a => addThree a (d / ((getPartialPathKmers G p k).length : ℚ)))
        (getPartialPathKmers G p k) st hMnd).1 m hm
    · rw [if_neg hT]
      exact (foldl_updState_nodup
        (fun a => addThree a
          (a.density / ((getPartialPathKmers G p k).map (fun x => (st x).density)).sum * d))
        (getPartialPathKmers G p k) st hMnd).1 m hm

/-- Witness for C2 on the edge graph `0 → 1` with `p = [1]`, `k = 2` and the
zero state: the single candidate k-mer is `[0, 1]` (`Lrev = 1`, `Lfwd = 0`),
its density total is zero, and the whole density `d = 1` lands on it. -/
theorem attributeShort_spec_witness :
    ((([1] : List Int).length < 2 ∧ ([1] : List Int) ≠ [] ∧
        (⟨[0, 1], [(0, 1)]⟩ : DGraph Int).edges.Nodup ∧
        getPartialPathKmers (⟨[0, 1], [(0, 1)]⟩ : DGraph Int) [1] 2 ≠ []) ∧
      attributeOne (⟨[0, 1], [(0, 1)]⟩ : DGraph Int) 2
          (fun _ => NodeData.zero) ([1], 1) [0, 1] =
        addThree ((fun _ => NodeData.zero : KState Int) [0, 1])
          (1 / ((getPartialPathKmers (⟨[0, 1], [(0, 1)]⟩ : DGraph Int) [1] 2).length : ℚ))) := by
  have hk : getPartialPathKmers (⟨[0, 1], [(0, 1)]⟩ : DGraph Int) [1] 2 = [[0, 1]] := by
    decide
  refine ⟨⟨by decide, by decide, by decide, by decide⟩, ?_⟩
  have hspec := attributeShort_spec (⟨[0, 1], [(0, 1)]⟩ : DGraph Int) 2
    (fun _ => NodeData.zero) [1] 1 (by decide) (by decide) (by decide) (by decide)
  refine hspec.2.1 ?_ [0, 1] ?_
  · rw [hk]
    simp [NodeData.zero]
  · rw [hk]
    exact List.mem_singleton.mpr rfl

/-- Reading an attribute after writing another: only the written attribute
changes. -/
theorem getAttr_setAttr {a : NodeData} {b c : KAttr} {x : ℚ} :
    getAttr (setAttr a b x) c = if c = b then x else getAttr a c := by
  cases b <;> cases c <;> simp [getAttr, setAttr]

theorem PassInv.refl {V : Type} (sm : KAttr) (st : KState V) :
    PassInv sm st st :=
  fun _ => ⟨fun _ _ _ => rfl, by ring⟩

theorem PassInv.trans {V : Type} {sm : KAttr} {st1 st2 st3 : KState V}
    (h12 : PassInv sm st1 st2) (h23 : PassInv sm st2 st3) :
    PassInv sm st1 st3 := by
  intro v
  obtain ⟨hA12, hB12⟩ := h12 v
  obtain ⟨hA23, hB23⟩ := h23 v
  refine ⟨fun a h1 h2 => (hA23 a h1 h2).trans (hA12 a h1 h2), ?_⟩
  have := hB12
  have := hB23
  linarith

/-- A single `bumpSmooth` write respects the pass invariant. -/
theorem PassInv.bump {V : Type} [DecidableEq V] {sm : KAttr}
    (hsm : sm ≠ KAttr.smtmp) (st : KState V) (w : List V) (x : ℚ) :
    PassInv sm st (bumpSmooth sm st w x) := by
  intro v
  unfold bumpSmooth updState
  by_cases hv : v = w
  · subst hv
    simp only [if_pos rfl]
    cases sm with
    | smtmp => exact absurd rfl hsm
    | density =>
        refine ⟨?_, ?_⟩
        · intro a h1 h2
          cases a <;> simp_all [getAttr, setAttr]
        · simp [getAttr, setAttr]
    | smfwd =>
        refine ⟨?_, ?_⟩
        · intro a h1 h2
          cases a <;> simp_all [getAttr, setAttr]
        · simp [getAttr, setAttr]
    | smrev =>
        refine ⟨?_, ?_⟩
        · intro a h1 h2
          cases a <;> simp_all [getAttr, setAttr]
        · simp [getAttr, setAttr]
  · constructor
    · intro a h1 h2
      simp [if_neg hv]
    · simp [if_neg hv]

/-- A fold of `bumpSmooth` writes (the successor loops of
`smooth_iteration`) respects the pass invariant, for any per-target
amounts computed from the running state. -/
theorem PassInv.bumpFold {V : Type} [DecidableEq V] {sm : KAttr}
    (hsm : sm ≠ KAttr.smtmp) (amount : KState V → List V → ℚ) :
    ∀ (targets : List (List V)) (st : KState V),
      PassInv sm st
        (targets.foldl (fun st' v => bumpSmooth sm st' v (amount st' v)) st) := by
  intro targets
  induction targets with
  | nil => intro st; exact PassInv.refl sm st
  | cons t rest ih =>
      intro st
      rw [List.foldl_cons]
      exact PassInv.trans (PassInv.bump hsm st t (amount st t))
        (ih (bumpSmooth sm st t (amount st t)))

/-- One `smooth_iteration` step (processing a single vertex) respects the
pass invariant. -/
theorem PassInv.process {V : Type} [DecidableEq V] {sm : KAttr}
    (hsm : sm ≠ KAttr.smtmp) (K : DGraph (List V)) (densityAttr : KAttr)
    (st : KState V) (u : List V) :
    PassInv sm st (smoothProcess K densityAttr sm st u) := by
  unfold smoothProcess
  by_cases hlen : (successors K u).length = 0
  · rw [if_pos hlen]
    exact PassInv.refl sm st
  · rw [if_neg hlen]
    by_cases hT : ((successors K u).map (fun v => getAttr (st v) densityAttr)).sum = 0
    · rw [if_pos hT]
      exact PassInv.bumpFold hsm
        (fun _ _ => getAttr (st u) sm / ((successors K u).length : ℚ))
        (successors K u) st
    · rw [if_neg hT]
      exact PassInv.bumpFold hsm
        (fun st' v => getAttr (st' v) densityAttr /
          ((successors K u).map (fun v => getAttr (st v) densityAttr)).sum *
          getAttr (st u) sm)
        (successors K u) st

/-- A whole `smooth_iteration` pass respects the pass invariant. -/
theorem PassInv.iteration {V : Type} [DecidableEq V] {sm : KAttr}
    (hsm : sm ≠ KAttr.smtmp) (K : DGraph (List V)) (densityAttr : KAttr)
    (order : List (List V)) (st : KState V) :
    PassInv sm st (smoothIteration K densityAttr sm order st) := by
  unfold smoothIteration
  induction order generalizing st with
  | nil => exact PassInv.refl sm st
  | cons u rest ih =>
      rw [List.foldl_cons]
      exact PassInv.trans (PassInv.process hsm K densityAttr st u)
        (ih (smoothProcess K densityAttr sm st u))

/-- Per-vertex accounting of `smooth_kmer_graph`: after both passes and the
commit, the density of a k-mer vertex has grown by its initial `SMOOTH_TMP`
plus the total boundary mass injected into its `smooth_fwd` and `smooth_rev`
accumulators during the passes (each `SMOOTH_TMP` write is paired with an
equal write to the pass's smooth attribute, and the commit adds `SMOOTH_TMP`
into the density). -/
theorem smoothKmerGraph_pointwise {V : Type} [DecidableEq V]
    (K : DGraph (List V)) (st : KState V) (hnd : K.vertices.Nodup)
    (v : List V) (hv : v ∈ K.vertices) :
    (smoothKmerGraph K st v).density =
      (st v).density + (st v).smtmp +
        (((smoothKmerGraph K st v).smfwd - (st v).smfwd) +
          ((smoothKmerGraph K st v).smrev - (st v).smrev)) := by
  unfold smoothKmerGraph
  set st1 := smoothIteration K .density .smfwd (topoSort K) st with hst1
  set st2 := smoothIteration (reverseGraph K) .density .smrev
    (topoSort (reverseGraph K)) st1 with hst2
  have hInv1 : PassInv KAttr.smfwd st st1 :=
    PassInv.iteration (by decide) K .density (topoSort K) st
  have hInv2 : PassInv KAttr.smrev st1 st2 :=
    PassInv.iteration (by decide) (reverseGraph K) .density
      (topoSort (reverseGraph K)) st1
  obtain ⟨hA1, hB1⟩ := hInv1 v
  obtain ⟨hA2, hB2⟩ := hInv2 v
  have hd21 : getAttr (st2 v) .density = getAttr (st1 v) .density :=
    hA2 .density (by decide) (by decide)
  have hd10 : getAttr (st1 v) .density = getAttr (st v) .density :=
    hA1 .density (by decide) (by decide)
  have hf21 : getAttr (st2 v) .smfwd = getAttr (st1 v) .smfwd :=
    hA2 .smfwd (by decide) (by decide)
  have hr10 : getAttr (st1 v) .smrev = getAttr (st v) .smrev :=
    hA1 .smrev (by decide) (by decide)
  have hcommit := foldl_updState_nodup
    (fun a => setAttr a .density (getAttr a .density + getAttr a .smtmp))
    K.vertices st2 hnd
  have hfin : commitSmoothing K .density st2 v =
      setAttr (st2 v) .density
        (getAttr (st2 v) .density + getAttr (st2 v) .smtmp) :=
    hcommit.2 v hv
  show (commitSmoothing K KAttr.density st2 v).density = _ + _ + _
  rw [hfin]
  simp only [getAttr, setAttr] at hd21 hd10 hf21 hr10 hB1 hB2 ⊢
  linarith

/-- C5: density conservation under smoothing on chains.  For any linear
chain `S` in `K` (every vertex with exactly one successor and one
predecessor) whose `SMOOTH_TMP` accumulators start at zero (as
`create_kmer_graph` initialises them), the committed density sum after
`smooth_kmer_graph` — i.e. the pre-commit `density + smooth_tmp`, which the
commit step folds into `density` — equals the density sum before smoothing
plus all boundary masses injected into the chain's `smooth_fwd` and
`smooth_rev` accumulators during the two passes (their total increase). -/
theorem smoothing_chain_conservation {V : Type} [DecidableEq V]
    (K : DGraph (List V)) (st : KState V) (S : List (List V))
    (hnd : K.vertices.Nodup)
    (hchain : ∀ v ∈ S, v ∈ K.vertices ∧ outDegree K v = 1 ∧ inDegree K v = 1)
    (htmp : ∀ v ∈ S, (st v).smtmp = 0) :
    (S.map (fun v => (smoothKmerGraph K st v).density)).sum =
      (S.map (fun v => (st v).density)).sum +
        (S.map (fun v =>
          ((smoothKmerGraph K st v).smfwd - (st v).smfwd) +
            ((smoothKmerGraph K st v).smrev - (st v).smrev))).sum := by
  induction S with
  | nil => simp
  | cons v S ih =>
      have hv := hchain v (List.mem_cons_self v S)
      have hS := fun w hw => hchain w (List.mem_cons_of_mem v hw)
      have htS := fun w hw => htmp w (List.mem_cons_of_mem v hw)
      have hpt := smoothKmerGraph_pointwise K st hnd v hv.1
      have htv := htmp v (List.mem_cons_self v S)
      have hih := ih hS htS
      simp only [List.map_cons, List.sum_cons]
      rw [htv] at hpt
      linarith

/-- Witness for C5 on the k-mer graph of the path `0 → 1 → 2 → 3 → 4` with
`k = 2` and the zero initial state: the chain `[[1,2], [2,3]]` has one
successor and one predecessor per vertex, and the conservation identity
holds. -/
theorem smoothing_chain_conservation_witness :
    (((kmerGraph pathGraph5 2).vertices.Nodup ∧
        ∀ v ∈ ([[1, 2], [2, 3]] : List (List Int)),
          v ∈ (kmerGraph pathGraph5 2).vertices ∧
            outDegree (kmerGraph pathGraph5 2) v = 1 ∧
            inDegree (kmerGraph pathGraph5 2) v = 1) ∧
      (([[1, 2], [2, 3]] : List (List Int)).map (fun v =>
          (smoothKmerGraph (kmerGraph pathGraph5 2) zeroStateInt v).density)).sum =
        (([[1, 2], [2, 3]] : List (List Int)).map (fun v =>
          (zeroStateInt v).density)).sum +
          (([[1, 2], [2, 3]] : List (List Int)).map (fun v =>
            ((smoothKmerGraph (kmerGraph pathGraph5 2) zeroStateInt v).smfwd -
                (zeroStateInt v).smfwd) +
              ((smoothKmerGraph (kmerGraph pathGraph5 2) zeroStateInt v).smrev -
                (zeroStateInt v).smrev))).sum) :=
  ⟨⟨by decide, by decide⟩,
    smoothing_chain_conservation (kmerGraph pathGraph5 2) zeroStateInt
      [[1, 2], [2, 3]] (by decide) (by decide) (fun _ _ => rfl)⟩

/-- `chainB` unfolded to Mathlib's `Chain'` predicate. -/
theorem chainB_iff_chain {R : Exon → Exon → Bool} :
    ∀ {l : List Exon}, chainB R l = true ↔
      List.Chain' (fun a b => R a b = true) l := by
  intro l
  induction l with
  | nil => simp [chainB]
  | cons a l ih =>
      cases l with
      | nil => simp [chainB]
      | cons b l' =>
          rw [List.chain'_cons, ← ih]
          simp [chainB]

/-- Behaviour of the collapse loop of `expand_path_chains`: starting from an
accumulated run `[s, e)` with `s < e`, over input exons with positive length
chained by `stop ≤ start`, the output list (1) starts at `s`, (2) has
strictly increasing coordinates (`stop < start` between consecutive exons),
(3) consists of nonempty intervals, and (4) never starts before `s`. -/
theorem mergeChainAux_spec :
    ∀ (rest : List Exon) (s e : Int),
      s < e →
      (∀ x ∈ rest, x.start < x.stop) →
      List.Chain' (fun a b => a.stop ≤ b.start) (Exon.mk s e :: rest) →
      (∀ y ∈ (mergeChainAux s e rest).head?, y.start = s) ∧
        List.Chain' (fun a b => a.stop < b.start) (mergeChainAux s e rest) ∧
        (∀ y ∈ mergeChainAux s e rest, y.start < y.stop) ∧
        (∀ y ∈ mergeChainAux s e rest, s ≤ y.start) := by
  intro rest
  induction rest with
  | nil =>
      intro s e hse _ _
      refine ⟨?_, ?_, ?_, ?_⟩
      · intro y hy
        simp only [mergeChainAux, List.head?_cons, Option.mem_def,
          Option.some.injEq] at hy
        rw [← hy]
      · exact List.chain'_singleton _
      · intro y hy
        rw [mergeChainAux, List.mem_singleton] at hy
        rw [hy]
        exact hse
      · intro y hy
        rw [mergeChainAux, List.mem_singleton] at hy
        rw [hy]
  | cons v rest ih =>
      intro s e hse hpos hchain
      rw [List.chain'_cons] at hchain
      have hev : e ≤ v.start := hchain.1
      have hvpos : v.start < v.stop := hpos v (List.mem_cons_self v rest)
      have hpos' : ∀ x ∈ rest, x.start < x.stop :=
        fun x hx => hpos x (List.mem_cons_of_mem v hx)
      by_cases hne : e ≠ v.start
      · have hlt : e < v.start := lt_of_le_of_ne hev hne
        obtain ⟨ihhead, ihchain, ihlen, ihlb⟩ :=
          ih v.start v.stop hvpos hpos' (by
            have : Exon.mk v.start v.stop = v := rfl
            rw [this]
            exact hchain.2)
        have hout : mergeChainAux s e (v :: rest) =
            Exon.mk s e :: mergeChainAux v.start v.stop rest := by
          rw [mergeChainAux, if_pos hne]
        refine ⟨?_, ?_, ?_, ?_⟩
        · intro y hy
          rw [hout] at hy
          simp only [List.head?_cons, Option.mem_def, Option.some.injEq] at hy
          rw [← hy]
        · rw [hout, List.chain'_cons']
          refine ⟨?_, ihchain⟩
          intro y hy
          have := ihhead y hy
          rw [this]
          exact hlt
        · intro y hy
          rw [hout, List.mem_cons] at hy
          rcases hy with rfl | hy
          · exact hse
          · exact ihlen y hy
        · intro y hy
          rw [hout, List.mem_cons] at hy
          rcases hy with rfl | hy
          · exact le_refl _
          · have := ihlb y hy
            omega
      · have heq : e = v.start := not_ne_iff.mp hne
        have hsv : s < v.stop := by omega
        obtain ⟨ihhead, ihchain, ihlen, ihlb⟩ :=
          ih s v.stop hsv hpos' (by
            rw [List.chain'_cons']
            constructor
            · intro y hy
              rcases rest with _ | ⟨w, rest'⟩
              · simp at hy
              · simp only [List.head?_cons, Option.mem_def,
                  Option.some.injEq] at hy
                rw [← hy]
                have := hchain.2
                rw [List.chain'_cons] at this
                exact this.1
            · exact (List.chain'_cons'.mp hchain.2).2)
        have hout : mergeChainAux s e (v :: rest) =
            mergeChainAux s v.stop rest := by
          rw [mergeChainAux, if_neg hne]
        rw [hout]
        exact ⟨ihhead, ihchain, ihlen, ihlb⟩

/-- `reconstructPath` is the collapse loop applied to `expandedExons`. -/
theorem reconstructPath_eq_merge (tg : TGraph) (strand : Strand)
    (kmerPath : List (List Exon)) :
    reconstructPath tg strand kmerPath =
      match expandedExons tg strand kmerPath with
      | [] => []
      | v :: rest => mergeChainAux v.start v.stop rest := rfl

/-- C6: reconstruction purity.  Whenever the chain-expanded, dummy-filtered,
strand-normalised exon sequence of a k-mer path is nonempty, consists of
real (`start ≥ 0`) nonempty intervals and is weakly ordered
(`stop ≤ next.start`, the transcript-graph layout invariant), the exon path
produced by `assemble_transcript_graph`'s post-processing contains no dummy
exon, has strictly increasing coordinates, and is adjacent-merged: no two
consecutive output exons satisfy `previous.end == next.start`. -/
theorem reconstruction_purity (tg : TGraph) (strand : Strand)
    (kmerPath : List (List Exon))
    (hne : expandedExons tg strand kmerPath ≠ [])
    (hreal : ∀ x ∈ expandedExons tg strand kmerPath, 0 ≤ x.start)
    (hlen : ∀ x ∈ expandedExons tg strand kmerPath, x.start < x.stop)
    (hord : chainB (fun a b => decide (a.stop ≤ b.start))
      (expandedExons tg strand kmerPath) = true) :
    (∀ y ∈ reconstructPath tg strand kmerPath, 0 ≤ y.start) ∧
      List.Chain' (fun a b => a.stop < b.start)
        (reconstructPath tg strand kmerPath) ∧
      (∀ y ∈ reconstructPath tg strand kmerPath, y.start < y.stop) ∧
      List.Chain' (fun a b => a.stop ≠ b.start)
        (reconstructPath tg strand kmerPath) := by
  rw [reconstructPath_eq_merge]
  match hexp : expandedExons tg strand kmerPath with
  | [] => exact absurd hexp hne
  | v :: rest =>
      rw [hexp] at hreal hlen hord
      have hchain : List.Chain' (fun a b => a.stop ≤ b.start) (v :: rest) := by
        have := chainB_iff_chain.mp hord
        exact this.imp (fun a b h => by
          rw [decide_eq_true_eq] at h
          exact h)
      have hv : v.start < v.stop := hlen v (List.mem_cons_self v rest)
      obtain ⟨_, hinc, hpositive, hlb⟩ :=
        mergeChainAux_spec rest v.start v.stop hv
          (fun x hx => hlen x (List.mem_cons_of_mem v hx))
          (by
            have : Exon.mk v.start v.stop = v := rfl
            rw [this]
            exact hchain)
      refine ⟨?_, hinc, hpositive, ?_⟩
      · intro y hy
        have h1 := hlb y hy
        have h2 := hreal v (List.mem_cons_self v rest)
        omega
      · exact hinc.imp (fun a b h => ne_of_lt h)

/-- Witness for C6 on the single k-mer path `[[Exon(0,1), Exon(1,2)]]` with
identity chains on the forward strand: the two adjacent exons merge into
`Exon(0,2)` and all three output invariants hold. -/
theorem reconstruction_purity_witness :
    ((expandedExons idChainTG Strand.pos [[⟨0, 1⟩, ⟨1, 2⟩]] ≠ [] ∧
        (∀ x ∈ expandedExons idChainTG Strand.pos [[⟨0, 1⟩, ⟨1, 2⟩]], 0 ≤ x.start) ∧
        (∀ x ∈ expandedExons idChainTG Strand.pos [[⟨0, 1⟩, ⟨1, 2⟩]], x.start < x.stop) ∧
        chainB (fun a b => decide (a.stop ≤ b.start))
          (expandedExons idChainTG Strand.pos [[⟨0, 1⟩, ⟨1, 2⟩]]) = true) ∧
      ((∀ y ∈ reconstructPath idChainTG Strand.pos [[⟨0, 1⟩, ⟨1, 2⟩]], 0 ≤ y.start) ∧
        List.Chain' (fun a b => a.stop < b.start)
          (reconstructPath idChainTG Strand.pos [[⟨0, 1⟩, ⟨1, 2⟩]]) ∧
        (∀ y ∈ reconstructPath idChainTG Strand.pos [[⟨0, 1⟩, ⟨1, 2⟩]], y.start < y.stop) ∧
        List.Chain' (fun a b => a.stop ≠ b.start)
          (reconstructPath idChainTG Strand.pos [[⟨0, 1⟩, ⟨1, 2⟩]]))) :=
  ⟨⟨by decide, by decide, by decide, by decide⟩,
    reconstruction_purity idChainTG Strand.pos [[⟨0, 1⟩, ⟨1, 2⟩]]
      (by decide) (by decide) (by decide) (by decide)⟩

/-- C9 (divergence witness): `assemble_transcript_graph` performs no
up-front validation of densities.  On a partial path carrying the negative
density `-2`, the pipeline up to and including smoothing completes normally
(no error of any kind is raised), instead of rejecting the input with an
InvalidInput failure; the negative density is attributed into the k-mer
graph like any other value.  (`NaN` has no counterpart in exact arithmetic,
but the claim already fails on the negative-density half.) -/
theorem assemble_accepts_negative_density :
    (assembleCore twoExonTG [([⟨0, 1⟩, ⟨1, 2⟩], -2)] 5 (1 / 2)).isOk = true ∧
      (-2 : ℚ) < 0 :=
  ⟨by decide, by norm_num⟩

/-- Edge membership in the reversed graph. -/
theorem mem_reverseGraph_edges {V : Type} {G : DGraph V} {a b : V} :
    (a, b) ∈ (reverseGraph G).edges ↔ (b, a) ∈ G.edges := by
  unfold reverseGraph
  simp only [List.mem_map, Prod.mk.injEq]
  constructor
  · rintro ⟨⟨x, y⟩, hmem, h2, h1⟩
    simp only at h1 h2
    rw [← h1, ← h2]
    exact hmem
  · intro h
    exact ⟨(b, a), h, rfl, rfl⟩

/-- A walk reversed is a walk of the reversed graph. -/
theorem isWalk_reverse {V : Type} [DecidableEq V] {G : DGraph V} {w : List V} :
    IsWalk (reverseGraph G) w.reverse ↔ IsWalk G w := by
  rw [isWalk_iff_chain, isWalk_iff_chain, List.chain'_reverse]
  constructor
  · intro h
    exact h.imp (fun a b hab => mem_reverseGraph_edges.mp hab)
  · intro h
    exact h.imp (fun a b hab => mem_reverseGraph_edges.mpr hab)

/-- Membership in the consecutive-pairs list of a dummy block. -/
theorem mem_chainEdges {V : Type} :
    ∀ (l : List V) (x y : V),
      ((x, y) ∈ chainEdges l ↔ ∃ i, l[i]? = some x ∧ l[i + 1]? = some y) := by
  intro l
  induction l with
  | nil =>
      intro x y
      simp [chainEdges]
  | cons a t ih =>
      intro x y
      cases t with
      | nil =>
          simp only [chainEdges, List.tail_cons, List.zip_nil_right,
            List.not_mem_nil, false_iff, not_exists, not_and]
          intro i h1 h2
          match i with
          | 0 => simp at h2
          | j + 1 => simp at h1
      | cons b t' =>
          have hstep : chainEdges (a :: b :: t') = (a, b) :: chainEdges (b :: t') := rfl
          rw [hstep, List.mem_cons, ih x y]
          constructor
          · rintro (heq | ⟨i, h1, h2⟩)
            · rw [Prod.mk.injEq] at heq
              exact ⟨0, by simp [heq.1.symm], by simp [heq.2.symm]⟩
            · exact ⟨i + 1, by simpa using h1, by simpa using h2⟩
          · rintro ⟨i, h1, h2⟩
            match i with
            | 0 =>
                left
                simp only [List.getElem?_cons_zero, Option.some.injEq] at h1
                simp only [List.getElem?_cons_succ, List.getElem?_cons_zero,
                  Option.some.injEq] at h2
                rw [h1, h2]
            | j + 1 =>
                right
                refine ⟨j, by simpa using h1, by simpa using h2⟩

/-- A walk whose every vertex has a forced unique successor follows the
forced chain: if `w` starts at `g 0`, has at most `m` vertices and every
edge out of `g i` (for `i + 1 < m`) leads to `g (i + 1)`, then `w` is an
initial segment of the chain `g 0, g 1, ...`. -/
theorem walk_forced_chain {V : Type} [DecidableEq V] [Inhabited V]
    {G : DGraph V} :
    ∀ (w : List V) (g : Nat → V) (m : Nat),
      (∀ i, i + 1 < m → ∀ y, (g i, y) ∈ G.edges → y = g (i + 1)) →
      IsWalk G w → w ≠ [] → w.headD default = g 0 → w.length ≤ m →
      w = (List.range w.length).map g := by
  intro w
  induction w with
  | nil => intro g m _ _ hne; exact absurd rfl hne
  | cons a t ih =>
      intro g m hforce hwalk hne hhead hlen
      cases t with
      | nil =>
          rw [List.headD_cons] at hhead
          rw [hhead]
          rfl
      | cons b t' =>
          rw [List.headD_cons] at hhead
          subst hhead
          rw [isWalk_iff_chain, List.chain'_cons] at hwalk
          have hlen2 : 2 ≤ m := by
            simp only [List.length_cons] at hlen
            omega
          have hb : b = g 1 := hforce 0 (by omega) b hwalk.1
          subst hb
          have hrec := ih (fun i => g (i + 1)) (m - 1)
            (by
              intro i hi y hy
              exact hforce (i + 1) (by omega) y hy)
            (isWalk_iff_chain.mpr hwalk.2) (by simp) (by simp)
            (by
              simp only [List.length_cons] at hlen ⊢
              omega)
          simp only [List.length_cons]
          rw [List.range_succ_eq_map, List.map_cons]
          congr 1
          rw [hrec]
          rw [List.map_map]
          congr 1

/-- `headD` after `dropLast` on a list with at least two elements. -/
theorem headD_dropLast {V : Type} [Inhabited V] {l : List V}
    (h : 2 ≤ l.length) : l.dropLast.headD default = l.headD default := by
  match l, h with
  | a :: b :: t, _ => rfl

/-- The tail of a walk is a walk. -/
theorem isWalk_tail {V : Type} [DecidableEq V] {G : DGraph V} {l : List V}
    (h : IsWalk G l) : IsWalk G l.tail := by
  rw [isWalk_iff_chain] at h ⊢
  exact h.tail

/-- `dropLast` of a walk is a walk. -/
theorem isWalk_dropLast {V : Type} [DecidableEq V] {G : DGraph V} {l : List V}
    (h : IsWalk G l) : IsWalk G l.dropLast := by
  rw [isWalk_iff_chain] at h ⊢
  by_cases hl : l = []
  · rw [hl]; simp
  · rw [← List.dropLast_append_getLast hl, List.chain'_append] at h
    exact h.1

/-- Dummy exons are determined by their coordinate. -/
theorem dummyExon_inj {a b : Int} : dummyExon a = dummyExon b ↔ a = b := by
  unfold dummyExon
  rw [Exon.mk.injEq]
  exact ⟨fun h => h.1, fun h => ⟨h, h⟩⟩

/-- Membership in the source dummy block. -/
theorem mem_sourceDummies {k : Nat} {v : Exon} :
    v ∈ sourceDummies k ↔ ∃ i < k, v = dummyExon (-(1 + (i : Int))) := by
  unfold sourceDummies
  simp only [List.mem_map, List.mem_range]
  constructor
  · rintro ⟨i, hi, rfl⟩; exact ⟨i, hi, rfl⟩
  · rintro ⟨i, hi, rfl⟩; exact ⟨i, hi, rfl⟩

/-- Membership in the sink dummy block. -/
theorem mem_sinkDummies {k : Nat} {v : Exon} :
    v ∈ sinkDummies k ↔ ∃ i < k, v = dummyExon (-(2 * (k : Int)) + (i : Int)) := by
  unfold sinkDummies
  simp only [List.mem_map, List.mem_range]
  constructor
  · rintro ⟨i, hi, rfl⟩; exact ⟨i, hi, rfl⟩
  · rintro ⟨i, hi, rfl⟩; exact ⟨i, hi, rfl⟩

/-- Indexing the source dummy block. -/
theorem sourceDummies_getElem {k i : Nat} (hi : i < k) :
    (sourceDummies k)[i]? = some (dummyExon (-(1 + (i : Int)))) := by
  unfold sourceDummies
  rw [List.getElem?_map, List.getElem?_range hi]
  rfl

/-- Indexing the sink dummy block. -/
theorem sinkDummies_getElem {k i : Nat} (hi : i < k) :
    (sinkDummies k)[i]? = some (dummyExon (-(2 * (k : Int)) + (i : Int))) := by
  unfold sinkDummies
  rw [List.getElem?_map, List.getElem?_range hi]
  rfl

/-- The last source dummy (`source_dummy_nodes[-1]`) is `Exon(-k, -k)`. -/
theorem sourceDummies_getLastD {k : Nat} (hk : 1 ≤ k) (d : Exon) :
    (sourceDummies k).getLastD d = dummyExon (-(k : Int)) := by
  rw [List.getLastD_eq_getLast?, List.getLast?_eq_getElem?]
  have hlen : (sourceDummies k).length = k := by
    unfold sourceDummies
    simp
  rw [hlen]
  rw [sourceDummies_getElem (by omega : k - 1 < k)]
  have : (1 : Int) + ((k - 1 : Nat) : Int) = (k : Int) := by
    have : ((k - 1 : Nat) : Int) = (k : Int) - 1 := by
      omega
    rw [this]
    ring
  rw [Option.getD_some, this]

/-- The first sink dummy (`sink_dummy_nodes[0]`) is `Exon(-2k, -2k)`. -/
theorem sinkDummies_headD {k : Nat} (hk : 1 ≤ k) (d : Exon) :
    (sinkDummies k).headD d = dummyExon (-(2 * (k : Int))) := by
  match k, hk with
  | j + 1, _ =>
      unfold sinkDummies
      rw [List.range_succ_eq_map, List.map_cons, List.headD_cons]
      simp

/-- The last sink dummy is `Exon(-(k+1), -(k+1))`. -/
theorem sinkDummies_getLastD {k : Nat} (hk : 1 ≤ k) (d : Exon) :
    (sinkDummies k).getLastD d = dummyExon (-((k : Int) + 1)) := by
  rw [List.getLastD_eq_getLast?, List.getLast?_eq_getElem?]
  have hlen : (sinkDummies k).length = k := by
    unfold sinkDummies
    simp
  rw [hlen]
  rw [sinkDummies_getElem (by omega : k - 1 < k)]
  have : -(2 * (k : Int)) + ((k - 1 : Nat) : Int) = -((k : Int) + 1) := by
    have : ((k - 1 : Nat) : Int) = (k : Int) - 1 := by omega
    rw [this]
    ring
  rw [Option.getD_some, this]

/-- The first source dummy is `Exon(-1, -1)`. -/
theorem sourceDummies_headD {k : Nat} (hk : 1 ≤ k) (d : Exon) :
    (sourceDummies k).headD d = dummyExon (-1) := by
  match k, hk with
  | j + 1, _ =>
      unfold sourceDummies
      rw [List.range_succ_eq_map, List.map_cons, List.headD_cons]
      simp

/-- Vertex membership in the dummy-augmented graph. -/
theorem mem_addDummy_vertices {G : DGraph Exon} {k : Nat} {v : Exon} :
    v ∈ (addDummyStartEndNodes G k).vertices ↔
      v ∈ G.vertices ∨ v ∈ sourceDummies k ∨ v ∈ sinkDummies k := by
  unfold addDummyStartEndNodes
  simp [List.mem_append, or_assoc]

/-- Edge membership in the dummy-augmented graph, split by origin. -/
theorem mem_addDummy_edges {G : DGraph Exon} {k : Nat} {e : Exon × Exon} :
    e ∈ (addDummyStartEndNodes G k).edges ↔
      e ∈ G.edges ∨ e ∈ chainEdges (sourceDummies k) ∨
        e ∈ chainEdges (sinkDummies k) ∨
        (∃ n ∈ G.vertices, inDegree G n = 0 ∧
          e = ((sourceDummies k).getLastD (dummyExon (-1)), n)) ∨
        (∃ n ∈ G.vertices, outDegree G n = 0 ∧
          e = (n, (sinkDummies k).headD (dummyExon (-1)))) := by
  unfold addDummyStartEndNodes
  simp only [List.mem_append, List.mem_map, List.mem_filter,
    decide_eq_true_eq, or_assoc]
  constructor
  · rintro (h | h | h | ⟨n, ⟨hn, hdeg⟩, rfl⟩ | ⟨n, ⟨hn, hdeg⟩, rfl⟩)
    · exact Or.inl h
    · exact Or.inr (Or.inl h)
    · exact Or.inr (Or.inr (Or.inl h))
    · exact Or.inr (Or.inr (Or.inr (Or.inl ⟨n, hn, hdeg, rfl⟩)))
    · exact Or.inr (Or.inr (Or.inr (Or.inr ⟨n, hn, hdeg, rfl⟩)))
  · rintro (h | h | h | ⟨n, hn, hdeg, rfl⟩ | ⟨n, hn, hdeg, rfl⟩)
    · exact Or.inl h
    · exact Or.inr (Or.inl h)
    · exact Or.inr (Or.inr (Or.inl h))
    · exact Or.inr (Or.inr (Or.inr (Or.inl ⟨n, ⟨hn, hdeg⟩, rfl⟩)))
    · exact Or.inr (Or.inr (Or.inr (Or.inr ⟨n, ⟨hn, hdeg⟩, rfl⟩)))

/-- Both endpoints of a consecutive-pairs edge belong to the block. -/
theorem chainEdges_endpoints {V : Type} {l : List V} {x y : V}
    (h : (x, y) ∈ chainEdges l) : x ∈ l ∧ y ∈ l := by
  rw [mem_chainEdges] at h
  obtain ⟨i, h1, h2⟩ := h
  exact ⟨List.getElem?_mem h1, List.getElem?_mem h2⟩

/-- The dummy-augmented graph keeps edge endpoints inside the vertex list. -/
theorem addDummy_edges_endpoints {G : DGraph Exon} {k : Nat} (hk : 1 ≤ k)
    (hwf : ∀ e ∈ G.edges, e.1 ∈ G.vertices ∧ e.2 ∈ G.vertices) :
    ∀ e ∈ (addDummyStartEndNodes G k).edges,
      e.1 ∈ (addDummyStartEndNodes G k).vertices ∧
        e.2 ∈ (addDummyStartEndNodes G k).vertices := by
  intro e he
  cases e with
  | mk a b =>
  rw [mem_addDummy_edges] at he
  rcases he with h | h | h | ⟨n, hn, _, heq⟩ | ⟨n, hn, _, heq⟩
  · obtain ⟨h1, h2⟩ := hwf (a, b) h
    exact ⟨mem_addDummy_vertices.mpr (Or.inl h1),
      mem_addDummy_vertices.mpr (Or.inl h2)⟩
  · obtain ⟨h1, h2⟩ := chainEdges_endpoints h
    exact ⟨mem_addDummy_vertices.mpr (Or.inr (Or.inl h1)),
      mem_addDummy_vertices.mpr (Or.inr (Or.inl h2))⟩
  · obtain ⟨h1, h2⟩ := chainEdges_endpoints h
    exact ⟨mem_addDummy_vertices.mpr (Or.inr (Or.inr h1)),
      mem_addDummy_vertices.mpr (Or.inr (Or.inr h2))⟩
  · rw [Prod.mk.injEq] at heq
    rw [heq.1, heq.2]
    constructor
    · apply mem_addDummy_vertices.mpr
      refine Or.inr (Or.inl ?_)
      rw [sourceDummies_getLastD hk]
      rw [mem_sourceDummies]
      exact ⟨k - 1, by omega, by rw [dummyExon_inj]; omega⟩
    · exact mem_addDummy_vertices.mpr (Or.inl hn)
  · rw [Prod.mk.injEq] at heq
    rw [heq.1, heq.2]
    constructor
    · exact mem_addDummy_vertices.mpr (Or.inl hn)
    · apply mem_addDummy_vertices.mpr
      refine Or.inr (Or.inr ?_)
      rw [sinkDummies_headD hk]
      rw [mem_sinkDummies]
      exact ⟨0, by omega, by rw [dummyExon_inj]; omega⟩

/-- Dummy exons (negative coordinate) are not vertices of the real graph. -/
theorem dummy_not_real {G : DGraph Exon} (hreal : ∀ v ∈ G.vertices, 0 ≤ v.start)
    {m : Int} (hm : m < 0) : dummyExon m ∉ G.vertices := by
  intro h
  have := hreal _ h
  unfold dummyExon at this
  simp only at this
  omega

/-- Length of the source dummy block. -/
theorem sourceDummies_length {k : Nat} : (sourceDummies k).length = k := by
  unfold sourceDummies
  simp

/-- Length of the sink dummy block. -/
theorem sinkDummies_length {k : Nat} : (sinkDummies k).length = k := by
  unfold sinkDummies
  simp

/-- A defined index of the source dummy block is in range. -/
theorem sourceDummies_index_lt {k i : Nat} {y : Exon}
    (h : (sourceDummies k)[i]? = some y) : i < k := by
  by_contra h0
  push_neg at h0
  rw [List.getElem?_eq_none (by rw [sourceDummies_length]; omega)] at h
  exact Option.noConfusion h

/-- A defined index of the sink dummy block is in range. -/
theorem sinkDummies_index_lt {k i : Nat} {y : Exon}
    (h : (sinkDummies k)[i]? = some y) : i < k := by
  by_contra h0
  push_neg at h0
  rw [List.getElem?_eq_none (by rw [sinkDummies_length]; omega)] at h
  exact Option.noConfusion h

/-- In the dummy-augmented graph of a nonempty well-formed real DAG, the only
vertex without predecessors is the first source dummy `Exon(-1, -1)`. -/
theorem addDummy_pred_empty_iff {G : DGraph Exon} {k : Nat} (hk : 2 ≤ k)
    (hne : G.vertices ≠ []) (hacy : Acyclic G) (hwf : WellFormed G)
    (hreal : ∀ v ∈ G.vertices, 0 ≤ v.start) :
    ∀ v ∈ (addDummyStartEndNodes G k).vertices,
      (predecessors (addDummyStartEndNodes G k) v = [] ↔ v = dummyExon (-1)) := by
  intro v hv
  constructor
  · intro hpred
    by_contra hvne
    rw [predecessors_eq_nil_iff] at hpred
    rw [mem_addDummy_vertices] at hv
    rcases hv with hv | hv | hv
    · by_cases hdeg : inDegree G v = 0
      · refine hpred (dummyExon (-(k : Int))) ?_
        refine mem_addDummy_edges.mpr (Or.inr (Or.inr (Or.inr (Or.inl
          ⟨v, hv, hdeg, ?_⟩))))
        rw [sourceDummies_getLastD (by omega : 1 ≤ k)]
      · have hne0 : predecessors G v ≠ [] := by
          intro h0
          unfold inDegree at hdeg
          rw [h0] at hdeg
          exact hdeg rfl
        obtain ⟨p, hp⟩ := List.exists_mem_of_ne_nil _ hne0
        exact hpred p (mem_addDummy_edges.mpr (Or.inl (mem_predecessors.mp hp)))
    · rw [mem_sourceDummies] at hv
      obtain ⟨i, hik, rfl⟩ := hv
      have hi1 : 1 ≤ i := by
        by_contra h0
        push_neg at h0
        have hi0 : i = 0 := by omega
        apply hvne
        rw [hi0]
        rw [dummyExon_inj]
        norm_num
      refine hpred (dummyExon (-(1 + ((i - 1 : Nat) : Int)))) ?_
      refine mem_addDummy_edges.mpr (Or.inr (Or.inl ?_))
      rw [mem_chainEdges]
      refine ⟨i - 1, sourceDummies_getElem (by omega), ?_⟩
      have hidx : i - 1 + 1 = i := by omega
      rw [hidx]
      exact sourceDummies_getElem hik
    · rw [mem_sinkDummies] at hv
      obtain ⟨i, hik, rfl⟩ := hv
      by_cases hi0 : i = 0
      · obtain ⟨n, hn, hsucc⟩ := exists_sink hne hacy hwf
        refine hpred n ?_
        refine mem_addDummy_edges.mpr (Or.inr (Or.inr (Or.inr (Or.inr
          ⟨n, hn, ?_, ?_⟩))))
        · unfold outDegree
          rw [hsucc]
          rfl
        · rw [sinkDummies_headD (by omega : 1 ≤ k)]
          rw [Prod.mk.injEq]
          refine ⟨rfl, ?_⟩
          rw [dummyExon_inj]
          rw [hi0]
          norm_num
      · refine hpred (dummyExon (-(2 * (k : Int)) + ((i - 1 : Nat) : Int))) ?_
        refine mem_addDummy_edges.mpr (Or.inr (Or.inr (Or.inl ?_)))
        rw [mem_chainEdges]
        refine ⟨i - 1, sinkDummies_getElem (by omega), ?_⟩
        have hidx : i - 1 + 1 = i := by omega
        rw [hidx]
        exact sinkDummies_getElem hik
  · rintro rfl
    rw [predecessors_eq_nil_iff]
    intro p hp
    rw [mem_addDummy_edges] at hp
    rcases hp with hp | hp | hp | ⟨n, hn, _, heq⟩ | ⟨n, hn, _, heq⟩
    · exact dummy_not_real hreal (by omega) (hwf.2.2 _ hp).2
    · rw [mem_chainEdges] at hp
      obtain ⟨i, _, h2⟩ := hp
      have hik := sourceDummies_index_lt h2
      rw [sourceDummies_getElem hik] at h2
      rw [Option.some.injEq, dummyExon_inj] at h2
      omega
    · rw [mem_chainEdges] at hp
      obtain ⟨i, _, h2⟩ := hp
      have hik := sinkDummies_index_lt h2
      rw [sinkDummies_getElem hik] at h2
      rw [Option.some.injEq, dummyExon_inj] at h2
      omega
    · rw [Prod.mk.injEq] at heq
      exact dummy_not_real hreal (by omega : (-1 : Int) < 0) (heq.2 ▸ hn)
    · rw [Prod.mk.injEq] at heq
      have h2 := heq.2
      rw [sinkDummies_headD (by omega : 1 ≤ k)] at h2
      rw [dummyExon_inj] at h2
      omega

/-- In the dummy-augmented graph of a nonempty well-formed real DAG, the only
vertex without successors is the last sink dummy `Exon(-(k+1), -(k+1))`. -/
theorem addDummy_succ_empty_iff {G : DGraph Exon} {k : Nat} (hk : 2 ≤ k)
    (hne : G.vertices ≠ []) (hacy : Acyclic G) (hwf : WellFormed G)
    (hreal : ∀ v ∈ G.vertices, 0 ≤ v.start) :
    ∀ v ∈ (addDummyStartEndNodes G k).vertices,
      (successors (addDummyStartEndNodes G k) v = [] ↔
        v = dummyExon (-((k : Int) + 1))) := by
  intro v hv
  constructor
  · intro hsucc
    by_contra hvne
    rw [successors_eq_nil_iff] at hsucc
    rw [mem_addDummy_vertices] at hv
    rcases hv with hv | hv | hv
    · by_cases hdeg : outDegree G v = 0
      · refine hsucc (dummyExon (-(2 * (k : Int)))) ?_
        refine mem_addDummy_edges.mpr (Or.inr (Or.inr (Or.inr (Or.inr
          ⟨v, hv, hdeg, ?_⟩))))
        rw [sinkDummies_headD (by omega : 1 ≤ k)]
      · have hne0 : successors G v ≠ [] := by
          intro h0
          unfold outDegree at hdeg
          rw [h0] at hdeg
          exact hdeg rfl
        obtain ⟨s, hs⟩ := List.exists_mem_of_ne_nil _ hne0
        exact hsucc s (mem_addDummy_edges.mpr (Or.inl (mem_successors.mp hs)))
    · rw [mem_sourceDummies] at hv
      obtain ⟨i, hik, rfl⟩ := hv
      by_cases hik1 : i + 1 < k
      · refine hsucc (dummyExon (-(1 + ((i + 1 : Nat) : Int)))) ?_
        refine mem_addDummy_edges.mpr (Or.inr (Or.inl ?_))
        rw [mem_chainEdges]
        exact ⟨i, sourceDummies_getElem (by omega), sourceDummies_getElem hik1⟩
      · have hieq : i = k - 1 := by omega
        obtain ⟨n, hn, hpredn⟩ := exists_source hne hacy hwf
        refine hsucc n ?_
        refine mem_addDummy_edges.mpr (Or.inr (Or.inr (Or.inr (Or.inl
          ⟨n, hn, ?_, ?_⟩))))
        · unfold inDegree
          rw [hpredn]
          rfl
        · rw [sourceDummies_getLastD (by omega : 1 ≤ k)]
          rw [Prod.mk.injEq]
          refine ⟨?_, rfl⟩
          rw [dummyExon_inj]
          omega
    · rw [mem_sinkDummies] at hv
      obtain ⟨i, hik, rfl⟩ := hv
      have hik1 : i + 1 < k := by
        by_contra h0
        push_neg at h0
        have : i = k - 1 := by omega
        apply hvne
        rw [this, dummyExon_inj]
        omega
      refine hsucc (dummyExon (-(2 * (k : Int)) + ((i + 1 : Nat) : Int))) ?_
      refine mem_addDummy_edges.mpr (Or.inr (Or.inr (Or.inl ?_)))
      rw [mem_chainEdges]
      exact ⟨i, sinkDummies_getElem (by omega), sinkDummies_getElem hik1⟩
  · rintro rfl
    rw [successors_eq_nil_iff]
    intro s hs
    rw [mem_addDummy_edges] at hs
    rcases hs with hs | hs | hs | ⟨n, hn, _, heq⟩ | ⟨n, hn, _, heq⟩
    · exact dummy_not_real hreal (by omega) (hwf.2.2 _ hs).1
    · rw [mem_chainEdges] at hs
      obtain ⟨i, h1, h2⟩ := hs
      have hik := sourceDummies_index_lt h2
      rw [sourceDummies_getElem (by omega : i < k)] at h1
      rw [Option.some.injEq, dummyExon_inj] at h1
      omega
    · rw [mem_chainEdges] at hs
      obtain ⟨i, h1, h2⟩ := hs
      have hik := sinkDummies_index_lt h2
      rw [sinkDummies_getElem (by omega : i < k)] at h1
      rw [Option.some.injEq, dummyExon_inj] at h1
      omega
    · rw [Prod.mk.injEq] at heq
      have h1 := heq.1
      rw [sourceDummies_getLastD (by omega : 1 ≤ k)] at h1
      rw [dummyExon_inj] at h1
      omega
    · rw [Prod.mk.injEq] at heq
      exact dummy_not_real hreal (by omega : -((k : Int) + 1) < 0) (heq.1 ▸ hn)

/-- Every edge leaving a non-final source dummy goes to the next source
dummy. -/
theorem addDummy_edge_from_source {G : DGraph Exon} {k : Nat}
    (hwf : WellFormed G) (hreal : ∀ v ∈ G.vertices, 0 ≤ v.start) :
    ∀ (i : Nat), 1 ≤ i → i < k → ∀ y : Exon,
      (dummyExon (-(i : Int)), y) ∈ (addDummyStartEndNodes G k).edges →
        y = dummyExon (-((i : Int) + 1)) := by
  intro i hi1 hik y hmem
  rw [mem_addDummy_edges] at hmem
  rcases hmem with h | h | h | ⟨n, hn, _, heq⟩ | ⟨n, hn, _, heq⟩
  · exact absurd (hwf.2.2 _ h).1 (dummy_not_real hreal (by omega))
  · rw [mem_chainEdges] at h
    obtain ⟨j, h1, h2⟩ := h
    have hjk := sourceDummies_index_lt h2
    rw [sourceDummies_getElem (by omega : j < k)] at h1
    rw [sourceDummies_getElem hjk] at h2
    rw [Option.some.injEq, dummyExon_inj] at h1
    rw [Option.some.injEq] at h2
    rw [← h2, dummyExon_inj]
    omega
  · rw [mem_chainEdges] at h
    obtain ⟨j, h1, h2⟩ := h
    have hjk := sinkDummies_index_lt h2
    rw [sinkDummies_getElem (by omega : j < k)] at h1
    rw [Option.some.injEq, dummyExon_inj] at h1
    omega
  · rw [Prod.mk.injEq] at heq
    have h1 := heq.1
    rw [sourceDummies_getLastD (by omega : 1 ≤ k), dummyExon_inj] at h1
    omega
  · rw [Prod.mk.injEq] at heq
    exact absurd (heq.1 ▸ hn) (dummy_not_real hreal (by omega))

/-- Every edge entering a non-initial sink dummy comes from the previous
sink dummy; indices are counted here as `Exon(-i, -i)` with
`k + 1 ≤ i ≤ 2k - 1`. -/
theorem addDummy_edge_to_sink {G : DGraph Exon} {k : Nat} (hk : 2 ≤ k)
    (hwf : WellFormed G) (hreal : ∀ v ∈ G.vertices, 0 ≤ v.start) :
    ∀ (i : Nat), k + 1 ≤ i → i ≤ 2 * k - 1 → ∀ x : Exon,
      (x, dummyExon (-(i : Int))) ∈ (addDummyStartEndNodes G k).edges →
        x = dummyExon (-((i : Int) + 1)) := by
  intro i hi1 hik x hmem
  rw [mem_addDummy_edges] at hmem
  rcases hmem with h | h | h | ⟨n, hn, _, heq⟩ | ⟨n, hn, _, heq⟩
  · exact absurd (hwf.2.2 _ h).2 (dummy_not_real hreal (by omega))
  · rw [mem_chainEdges] at h
    obtain ⟨j, h1, h2⟩ := h
    have hjk := sourceDummies_index_lt h2
    rw [sourceDummies_getElem hjk] at h2
    rw [Option.some.injEq, dummyExon_inj] at h2
    omega
  · rw [mem_chainEdges] at h
    obtain ⟨j, h1, h2⟩ := h
    have hjk := sinkDummies_index_lt h2
    rw [sinkDummies_getElem hjk] at h2
    rw [sinkDummies_getElem (by omega : j < k)] at h1
    rw [Option.some.injEq, dummyExon_inj] at h2
    rw [Option.some.injEq] at h1
    rw [← h1, dummyExon_inj]
    omega
  · rw [Prod.mk.injEq] at heq
    exact absurd (heq.2 ▸ hn) (dummy_not_real hreal (by omega))
  · rw [Prod.mk.injEq] at heq
    have h2 := heq.2
    rw [sinkDummies_headD (by omega : 1 ≤ k), dummyExon_inj] at h2
    omega

/-- For `k ≥ 2`, a k-mer vertex has an incoming edge in
`create_kmer_graph(G, k)` exactly when its first vertex has a predecessor in
`G`. -/
theorem kmer_has_incoming_iff {V : Type} [DecidableEq V] [Inhabited V]
    {G : DGraph V} {k : Nat} (hk : 2 ≤ k)
    (hwfe : ∀ e ∈ G.edges, e.1 ∈ G.vertices ∧ e.2 ∈ G.vertices)
    {u : List V} (hu : u ∈ kmerNodes G k) :
    (∃ w, (w, u) ∈ kmerGraphEdges G k) ↔
      predecessors G (u.headD default) ≠ [] := by
  constructor
  · rintro ⟨w, hw⟩
    unfold kmerGraphEdges at hw
    simp only [List.mem_flatMap, List.mem_dedup, List.mem_append, List.mem_map,
      List.mem_filter, decide_eq_true_eq, Prod.mk.injEq] at hw
    obtain ⟨m, _, f, ⟨⟨w2, ⟨hw2mem, hw2drop⟩, hw2last⟩, r,
      ⟨⟨w1, ⟨hw1mem, hw1tail⟩, hw1head⟩, hrw, hmu⟩⟩⟩ := hw
    obtain ⟨hw1ne, hw1len, hw1walk⟩ := kmer_shape (by omega) hw1mem
    have hw1eq : w1 = r :: m := by
      rw [← hw1tail, ← hw1head]
      exact (headD_cons_tail hw1ne).symm
    have hmne : m ≠ [] := by
      intro h0
      rw [h0] at hw1eq
      rw [hw1eq] at hw1len
      simp at hw1len
      omega
    have hwalk : IsWalk G (r :: m) := hw1eq ▸ hw1walk
    rw [isWalk_iff_chain] at hwalk
    cases m with
    | nil => exact absurd rfl hmne
    | cons m0 mt =>
        rw [List.chain'_cons] at hwalk
        intro hnil
        rw [predecessors_eq_nil_iff] at hnil
        have huhead : u.headD default = m0 := by
          rw [← hmu]
          rfl
        exact hnil r (by rw [huhead]; exact hwalk.1)
  · intro hne0
    obtain ⟨p, hp⟩ := List.exists_mem_of_ne_nil _ hne0
    have hedge := mem_predecessors.mp hp
    obtain ⟨hune, hulen, huwalk, huheadmem⟩ := (mem_kmerNodes (by omega)).mp hu
    have hdlne : u.dropLast ≠ [] := by
      intro h0
      have := congrArg List.length h0
      rw [List.length_dropLast] at this
      simp at this
      omega
    have hdlhead : u.dropLast.headD default = u.headD default :=
      headD_dropLast (by omega)
    have hwwalk : IsWalk G (p :: u.dropLast) := by
      rw [isWalk_iff_chain]
      cases hdl : u.dropLast with
      | nil => exact absurd hdl hdlne
      | cons a t =>
          rw [List.chain'_cons]
          constructor
          · have ha : a = u.headD default := by
              rw [← hdlhead, hdl]
              rfl
            rw [ha]
            exact hedge
          · have hwalk2 := isWalk_dropLast huwalk
            rw [isWalk_iff_chain] at hwalk2
            rw [hdl] at hwalk2
            exact hwalk2
    have hwmem : (p :: u.dropLast) ∈ kmerNodes G k := by
      rw [mem_kmerNodes (by omega : 1 ≤ k)]
      refine ⟨by simp, ?_, hwwalk, ?_⟩
      · rw [List.length_cons, List.length_dropLast]
        omega
      · rw [List.headD_cons]
        exact (hwfe _ hedge).1
    refine ⟨p :: u.dropLast, (mem_kmerGraphEdges_iff hk hwmem hu).mpr ⟨rfl, ?_⟩⟩
    have hlast1 : (p :: u.dropLast).getLastD default =
        u.dropLast.getLastD default := getLastD_cons_of_ne_nil hdlne p
    have hsplit : IsWalk G (u.dropLast ++ [u.getLastD default]) := by
      rw [dropLast_append_getLastD hune]
      exact huwalk
    rw [isWalk_iff_chain, List.chain'_append] at hsplit
    rw [hlast1]
    refine hsplit.2.2 (u.dropLast.getLastD default) ?_ (u.getLastD default)
      (by simp)
    rw [List.getLastD_eq_getLast?, List.getLast?_eq_getLast _ hdlne]
    simp [List.getLast?_eq_getLast _ hdlne]

/-- For `k ≥ 2`, a k-mer vertex has an outgoing edge in
`create_kmer_graph(G, k)` exactly when its last vertex has a successor in
`G`. -/
theorem kmer_has_outgoing_iff {V : Type} [DecidableEq V] [Inhabited V]
    {G : DGraph V} {k : Nat} (hk : 2 ≤ k)
    (hwfe : ∀ e ∈ G.edges, e.1 ∈ G.vertices ∧ e.2 ∈ G.vertices)
    {u : List V} (hu : u ∈ kmerNodes G k) :
    (∃ w, (u, w) ∈ kmerGraphEdges G k) ↔
      successors G (u.getLastD default) ≠ [] := by
  constructor
  · rintro ⟨w, hw⟩
    unfold kmerGraphEdges at hw
    simp only [List.mem_flatMap, List.mem_dedup, List.mem_append, List.mem_map,
      List.mem_filter, decide_eq_true_eq, Prod.mk.injEq] at hw
    obtain ⟨m, _, f, ⟨⟨w2, ⟨hw2mem, hw2drop⟩, hw2last⟩, r,
      ⟨⟨w1, ⟨hw1mem, hw1tail⟩, hw1head⟩, hru, hmw⟩⟩⟩ := hw
    obtain ⟨hw2ne, hw2len, hw2walk⟩ := kmer_shape (by omega) hw2mem
    have hw2eq : w2 = m ++ [f] := by
      rw [← hw2drop, ← hw2last]
      exact (dropLast_append_getLastD hw2ne).symm
    have hmne : m ≠ [] := by
      intro h0
      rw [h0] at hw2eq
      rw [hw2eq] at hw2len
      simp at hw2len
      omega
    have hwalk : IsWalk G (m ++ [f]) := hw2eq ▸ hw2walk
    rw [isWalk_iff_chain, List.chain'_append] at hwalk
    have hedge : (m.getLastD default, f) ∈ G.edges := by
      refine hwalk.2.2 (m.getLastD default) ?_ f (by simp)
      rw [List.getLastD_eq_getLast?, List.getLast?_eq_getLast _ hmne]
      simp [List.getLast?_eq_getLast _ hmne]
    have hulast : u.getLastD default = m.getLastD default := by
      rw [← hru]
      exact getLastD_cons_of_ne_nil hmne r
    intro hnil
    rw [successors_eq_nil_iff] at hnil
    exact hnil f (by rw [hulast]; exact hedge)
  · intro hne0
    obtain ⟨s, hs⟩ := List.exists_mem_of_ne_nil _ hne0
    have hedge := mem_successors.mp hs
    obtain ⟨hune, hulen, huwalk, huheadmem⟩ := (mem_kmerNodes (by omega)).mp hu
    have htne : u.tail ≠ [] := by
      intro h0
      have := congrArg List.length h0
      rw [List.length_tail] at this
      simp at this
      omega
    have htlast : u.tail.getLastD default = u.getLastD default := by
      cases u with
      | nil => exact absurd rfl hune
      | cons a t => exact (getLastD_cons_of_ne_nil htne a).symm
    have hwwalk : IsWalk G (u.tail ++ [s]) := by
      rw [isWalk_iff_chain, List.chain'_append]
      refine ⟨?_, by simp, ?_⟩
      · have := isWalk_tail huwalk
        rw [isWalk_iff_chain] at this
        exact this
      · intro x hx y hy
        simp only [List.head?_cons, Option.mem_def, Option.some.injEq] at hy
        rw [List.getLast?_eq_getLast _ htne, Option.mem_def,
          Option.some.injEq] at hx
        rw [← hy, ← hx, ← getLastD_eq_getLast htne, htlast]
        exact hedge
    have hthead : u.tail.headD default ∈ G.vertices := by
      cases u with
      | nil => exact absurd rfl hune
      | cons a t =>
          cases t with
          | nil =>
              exfalso
              apply htne
              rfl
          | cons b t' =>
              have : IsWalk G (a :: b :: t') := huwalk
              rw [isWalk_iff_chain, List.chain'_cons] at this
              exact (hwfe _ this.1).2
    have hwmem : (u.tail ++ [s]) ∈ kmerNodes G k := by
      rw [mem_kmerNodes (by omega : 1 ≤ k)]
      refine ⟨by simp, ?_, hwwalk, ?_⟩
      · rw [List.length_append, List.length_tail]
        simp
        omega
      · cases ht : u.tail with
        | nil => exact absurd ht htne
        | cons a t =>
            rw [List.cons_append, List.headD_cons]
            have : u.tail.headD default = a := by rw [ht]; rfl
            rw [← this]
            exact hthead
    refine ⟨u.tail ++ [s], (mem_kmerGraphEdges_iff hk hu hwmem).mpr ⟨?_, ?_⟩⟩
    · rw [List.dropLast_concat]
    · have : (u.tail ++ [s]).getLastD default = s := by
        rw [List.getLastD_eq_getLast?, List.getLast?_concat]
        rfl
      rw [this]
      exact hedge

/-- The source dummy block is a walk of the augmented graph. -/
theorem isWalk_sourceDummies {G : DGraph Exon} {k : Nat} :
    IsWalk (addDummyStartEndNodes G k) (sourceDummies k) := by
  rw [isWalk_iff_chain]
  unfold sourceDummies
  rw [List.chain'_map]
  cases k with
  | zero => simp
  | succ j =>
      rw [List.chain'_range_succ]
      intro m hm
      refine mem_addDummy_edges.mpr (Or.inr (Or.inl ?_))
      rw [mem_chainEdges]
      exact ⟨m, sourceDummies_getElem (by omega), sourceDummies_getElem (by omega)⟩

/-- The sink dummy block is a walk of the augmented graph. -/
theorem isWalk_sinkDummies {G : DGraph Exon} {k : Nat} :
    IsWalk (addDummyStartEndNodes G k) (sinkDummies k) := by
  rw [isWalk_iff_chain]
  unfold sinkDummies
  rw [List.chain'_map]
  cases k with
  | zero => simp
  | succ j =>
      rw [List.chain'_range_succ]
      intro m hm
      refine mem_addDummy_edges.mpr (Or.inr (Or.inr (Or.inl ?_)))
      rw [mem_chainEdges]
      exact ⟨m, sinkDummies_getElem (by omega), sinkDummies_getElem (by omega)⟩

/-- The reversed descending sink chain is the sink dummy block. -/
theorem reverse_desc_eq_sinkDummies {k : Nat} :
    ((List.range k).map
      (fun (i : Nat) => dummyExon (-((k : Int) + 1) - (i : Int)))).reverse =
      sinkDummies k := by
  apply List.ext_getElem
  · rw [List.length_reverse, List.length_map, List.length_range,
      sinkDummies_length]
  · intro i h1 h2
    rw [List.getElem_reverse]
    simp only [List.length_map, List.length_range] at h1 ⊢
    rw [List.getElem_map, List.getElem_range]
    have h2' : i < k := by
      rw [sinkDummies_length] at h2
      exact h2
    have := sinkDummies_getElem h2'
    have hsome : (sinkDummies k)[i] = dummyExon (-(2 * (k : Int)) + (i : Int)) := by
      rw [← Option.some.injEq]
      rw [← List.getElem?_eq_getElem h2]
      exact this
    rw [hsome, dummyExon_inj]
    have hcast : ((k - 1 - i : Nat) : Int) = (k : Int) - 1 - (i : Int) := by
      omega
    rw [hcast]
    ring

/-- C3 (amended to `k ≥ 2`, the only sizes the driver uses): for a finite
nonempty real-exon DAG `G`, after `add_dummy_start_end_nodes(G, k)` and
`create_kmer_graph(G, k)`, the k-mer graph has exactly one vertex of
in-degree 0, the tuple of the `k` source dummies, and exactly one vertex of
out-degree 0, the tuple of the `k` sink dummies. -/
theorem kmer_unique_source_sink (G : DGraph Exon) (k : Nat) (hk : 2 ≤ k)
    (hne : G.vertices ≠ []) (hacy : Acyclic G) (hwf : WellFormed G)
    (hreal : ∀ v ∈ G.vertices, 0 ≤ v.start) :
    (sourceDummies k ∈ (kmerGraph (addDummyStartEndNodes G k) k).vertices ∧
      ∀ u ∈ (kmerGraph (addDummyStartEndNodes G k) k).vertices,
        (inDegree (kmerGraph (addDummyStartEndNodes G k) k) u = 0 ↔
          u = sourceDummies k)) ∧
    (sinkDummies k ∈ (kmerGraph (addDummyStartEndNodes G k) k).vertices ∧
      ∀ u ∈ (kmerGraph (addDummyStartEndNodes G k) k).vertices,
        (outDegree (kmerGraph (addDummyStartEndNodes G k) k) u = 0 ↔
          u = sinkDummies k)) := by
  have hwfe := addDummy_edges_endpoints (by omega : 1 ≤ k) hwf.2.2
  have hsrcmem : sourceDummies k ∈ kmerNodes (addDummyStartEndNodes G k) k := by
    rw [mem_kmerNodes (by omega : 1 ≤ k)]
    refine ⟨?_, sourceDummies_length, isWalk_sourceDummies, ?_⟩
    · intro h0
      have := congrArg List.length h0
      rw [sourceDummies_length] at this
      simp at this
      omega
    · rw [sourceDummies_headD (by omega : 1 ≤ k)]
      apply mem_addDummy_vertices.mpr
      refine Or.inr (Or.inl (mem_sourceDummies.mpr ⟨0, by omega, ?_⟩))
      rw [dummyExon_inj]
      norm_num
  have hsnkmem : sinkDummies k ∈ kmerNodes (addDummyStartEndNodes G k) k := by
    rw [mem_kmerNodes (by omega : 1 ≤ k)]
    refine ⟨?_, sinkDummies_length, isWalk_sinkDummies, ?_⟩
    · intro h0
      have := congrArg List.length h0
      rw [sinkDummies_length] at this
      simp at this
      omega
    · rw [sinkDummies_headD (by omega : 1 ≤ k)]
      apply mem_addDummy_vertices.mpr
      refine Or.inr (Or.inr (mem_sinkDummies.mpr ⟨0, by omega, ?_⟩))
      rw [dummyExon_inj]
      norm_num
  constructor
  · refine ⟨hsrcmem, ?_⟩
    intro u hu
    obtain ⟨hune, hulen, huwalk, huhead⟩ :=
      (mem_kmerNodes (by omega : 1 ≤ k)).mp hu
    constructor
    · intro hdeg
      have hemp : predecessors (kmerGraph (addDummyStartEndNodes G k) k) u = [] :=
        List.length_eq_zero.mp hdeg
      rw [predecessors_eq_nil_iff] at hemp
      have hpred0 : predecessors (addDummyStartEndNodes G k) (u.headD default) = [] := by
        by_contra hne0
        obtain ⟨w, hw⟩ := (kmer_has_incoming_iff hk hwfe hu).mpr hne0
        exact hemp w hw
      have hhead : u.headD default = dummyExon (-1) :=
        (addDummy_pred_empty_iff hk hne hacy hwf hreal _ huhead).mp hpred0
      have hforced := walk_forced_chain u
        (fun (i : Nat) => dummyExon (-(1 + (i : Int)))) k
        (by
          intro i hik y hy
          have hy2 : (dummyExon (-(((1 + i : Nat)) : Int)), y) ∈
              (addDummyStartEndNodes G k).edges := by
            have hcast : -(((1 + i : Nat)) : Int) = -(1 + (i : Int)) := by
              push_cast
              ring
            rw [hcast]
            exact hy
          have hres := addDummy_edge_from_source hwf hreal (1 + i)
            (by omega) (by omega) y hy2
          show y = dummyExon (-(1 + ((i + 1 : Nat) : Int)))
          rw [hres, dummyExon_inj]
          push_cast
          ring)
        huwalk hune
        (by
          rw [hhead, dummyExon_inj]
          norm_num)
        (by omega)
      rw [hulen] at hforced
      exact hforced
    · rintro rfl
      unfold inDegree
      rw [List.length_eq_zero, predecessors_eq_nil_iff]
      intro w hw
      have hpredemp : predecessors (addDummyStartEndNodes G k)
          ((sourceDummies k).headD default) = [] := by
        apply (addDummy_pred_empty_iff hk hne hacy hwf hreal _ ?_).mpr
        · rw [sourceDummies_headD (by omega : 1 ≤ k)]
        · rw [sourceDummies_headD (by omega : 1 ≤ k)]
          apply mem_addDummy_vertices.mpr
          refine Or.inr (Or.inl (mem_sourceDummies.mpr ⟨0, by omega, ?_⟩))
          rw [dummyExon_inj]
          norm_num
      have := (kmer_has_incoming_iff hk hwfe hsrcmem).mp ⟨w, hw⟩
      exact this hpredemp
  · refine ⟨hsnkmem, ?_⟩
    intro u hu
    obtain ⟨hune, hulen, huwalk, huhead⟩ :=
      (mem_kmerNodes (by omega : 1 ≤ k)).mp hu
    constructor
    · intro hdeg
      have hemp : successors (kmerGraph (addDummyStartEndNodes G k) k) u = [] :=
        List.length_eq_zero.mp hdeg
      rw [successors_eq_nil_iff] at hemp
      have hsucc0 : successors (addDummyStartEndNodes G k) (u.getLastD default) = [] := by
        by_contra hne0
        obtain ⟨w, hw⟩ := (kmer_has_outgoing_iff hk hwfe hu).mpr hne0
        exact hemp w hw
      have hulastmem : u.getLastD default ∈ (addDummyStartEndNodes G k).vertices := by
        rw [← dropLast_append_getLastD hune] at huwalk
        by_cases hdl : u.dropLast = []
        · rw [hdl] at huwalk
          have : u = [u.getLastD default] := by
            rw [← dropLast_append_getLastD hune, hdl]
            simp
          rw [this] at hulen
          simp at hulen
          omega
        · rw [isWalk_iff_chain, List.chain'_append] at huwalk
          have hedge := huwalk.2.2 (u.dropLast.getLastD default)
            (by
              rw [List.getLastD_eq_getLast?, List.getLast?_eq_getLast _ hdl]
              simp [List.getLast?_eq_getLast _ hdl])
            (u.getLastD default) (by simp)
          exact (hwfe _ hedge).2
      have hlast : u.getLastD default = dummyExon (-((k : Int) + 1)) :=
        (addDummy_succ_empty_iff hk hne hacy hwf hreal _ hulastmem).mp hsucc0
      have hrevwalk : IsWalk (reverseGraph (addDummyStartEndNodes G k)) u.reverse :=
        isWalk_reverse.mpr huwalk
      have hrevne : u.reverse ≠ [] := by
        intro h0
        rw [List.reverse_eq_nil_iff] at h0
        exact hune h0
      have hrevhead : u.reverse.headD default = u.getLastD default := by
        rw [List.headD_eq_head?, List.head?_reverse, ← List.getLastD_eq_getLast?]
      have hforced := walk_forced_chain u.reverse
        (fun (i : Nat) => dummyExon (-((k : Int) + 1) - (i : Int))) k
        (by
          intro i hik y hy
          rw [mem_reverseGraph_edges] at hy
          have hy2 : (y, dummyExon (-(((k + 1 + i : Nat)) : Int))) ∈
              (addDummyStartEndNodes G k).edges := by
            have hcast : -(((k + 1 + i : Nat)) : Int) =
                -((k : Int) + 1) - (i : Int) := by
              push_cast
              ring
            rw [hcast]
            exact hy
          have hres := addDummy_edge_to_sink hk hwf hreal (k + 1 + i)
            (by omega) (by omega) y hy2
          show y = dummyExon (-((k : Int) + 1) - ((i + 1 : Nat) : Int))
          rw [hres, dummyExon_inj]
          push_cast
          ring)
        hrevwalk hrevne
        (by
          rw [hrevhead, hlast, dummyExon_inj]
          norm_num)
        (by
          rw [List.length_reverse]
          omega)
      rw [List.length_reverse, hulen] at hforced
      have : u = sinkDummies k := by
        rw [← reverse_desc_eq_sinkDummies, ← hforced, List.reverse_reverse]
      exact this
    · rintro rfl
      unfold outDegree
      rw [List.length_eq_zero, successors_eq_nil_iff]
      intro w hw
      have hsuccemp : successors (addDummyStartEndNodes G k)
          ((sinkDummies k).getLastD default) = [] := by
        apply (addDummy_succ_empty_iff hk hne hacy hwf hreal _ ?_).mpr
        · rw [sinkDummies_getLastD (by omega : 1 ≤ k)]
        · rw [sinkDummies_getLastD (by omega : 1 ≤ k)]
          apply mem_addDummy_vertices.mpr
          refine Or.inr (Or.inr (mem_sinkDummies.mpr ⟨k - 1, by omega, ?_⟩))
          rw [dummyExon_inj]
          omega
      have := (kmer_has_outgoing_iff hk hwfe hsnkmem).mp ⟨w, hw⟩
      exact this hsuccemp

/-- Witness for C3 on the two-exon graph `Exon(0,1) → Exon(1,2)` with
`k = 2`: the k-mer graph of the dummy-augmented graph has the source dummy
tuple as its unique in-degree-0 vertex and the sink dummy tuple as its
unique out-degree-0 vertex. -/
theorem kmer_unique_source_sink_witness :
    (2 ≤ 2 ∧ (⟨[⟨0, 1⟩, ⟨1, 2⟩], [(⟨0, 1⟩, ⟨1, 2⟩)]⟩ : DGraph Exon).vertices ≠ [] ∧
        WellFormed (⟨[⟨0, 1⟩, ⟨1, 2⟩], [(⟨0, 1⟩, ⟨1, 2⟩)]⟩ : DGraph Exon) ∧
        (∀ v ∈ (⟨[⟨0, 1⟩, ⟨1, 2⟩], [(⟨0, 1⟩, ⟨1, 2⟩)]⟩ : DGraph Exon).vertices, 0 ≤ v.start)) ∧
      UniqueSourceSinkAt (⟨[⟨0, 1⟩, ⟨1, 2⟩], [(⟨0, 1⟩, ⟨1, 2⟩)]⟩ : DGraph Exon) 2 :=
  ⟨⟨by decide, by decide, by decide, by decide⟩,
    kmer_unique_source_sink (⟨[⟨0, 1⟩, ⟨1, 2⟩], [(⟨0, 1⟩, ⟨1, 2⟩)]⟩ : DGraph Exon)
      2 (by decide) (by decide)
      ⟨fun v => v.start.toNat, by decide⟩ (by decide) (by decide)⟩

/-- Counterexample to C3 as stated (without a lower bound on `k`): with
`k = 1` on the one-exon graph, `create_kmer_graph` links every pair of
1-mers through the empty hash key, so even the source dummy tuple has
incoming edges and no vertex of in-degree 0 exists at all. -/
theorem kmer_unique_source_sink_counterexample :
    ¬ (inDegree (kmerGraph (addDummyStartEndNodes
        (⟨[⟨0, 1⟩], []⟩ : DGraph Exon) 1) 1) (sourceDummies 1) = 0) := by
  decide
